import Mathlib

/-!
# Weighted MinHash (`licensedb/internal/wmh/wmh.go`)

A shallow embedding of `NewWeightedMinHasher` and `WeightedMinHasher.Hash`.

* Go `int` values (indices, `dim`, `sampleSize`, `Bitness`) are `Int`; the
  unsigned conversions `uint64(k)`, `uint32(k)`, `uint16(k)` and the shifts are
  written with an explicit `% 2 ^ w`.
* Floating-point arithmetic is reached only through a record of primitives
  (`FloatOps`), one field per Go operation used by the source.  `IEEE.ops` is a
  concrete instance over IEEE-754 values (NaN, the two infinities and the
  finite values as rationals, rounded to nearest-even); `Exact.ops` is the
  instance of exact arithmetic over an ordered field with a floor function.
* `log.Fatalf` and Go run-time panics are results of type `HashError`.
* The seeded source and the Gamma / Uniform samplers are external libraries;
  they are a record of state-passing functions (`RandOps`).
-/

deriving instance DecidableEq for Except

namespace Wmh

/-- The constant `maxUint16` of the source (line 12): `65536`. -/
def maxUint16 : Nat := 65536

/-- The floating-point primitives used by the source, over a carrier `F` for
`float32` and a carrier `D` for `float64`. -/
structure FloatOps (F D : Type) where
  /-- The `float32` constant `0` of the test `v < 0`. -/
  zero : F
  /-- The value `float32(math.MaxFloat32)`. -/
  maxFloat32 : F
  /-- The conversion `float32(n)` of an unsigned integer. -/
  ofNat : Nat → F
  /-- The comparison `a < b` on `float32`. -/
  lt : F → F → Bool
  /-- The sum `a + b` on `float32`. -/
  add : F → F → F
  /-- The difference `a - b` on `float32`. -/
  sub : F → F → F
  /-- The product `a * b` on `float32`. -/
  mul : F → F → F
  /-- The quotient `a / b` on `float32`. -/
  div : F → F → F
  /-- The conversion `float64(x)`. -/
  toF64 : F → D
  /-- The function `math.Floor`. -/
  floor64 : D → D
  /-- The conversion `float32(x)` of a `float64`. -/
  toF32 : D → F
  /-- The function `fastlog.Log`, approximate natural logarithm. -/
  log : F → F
  /-- The conversions `uint64(x)`, `uint32(x)`, `uint16(x)` of a `float32`,
  by the width of the target type. -/
  toUint : Nat → F → Nat
  /-- The product `a * b` on `float64`. -/
  mul64 : D → D → D
  /-- The conversion of an integer constant to `float64`. -/
  ofNat64 : Nat → D
  /-- The conversion `uint16(x)` of a `float64`. -/
  toUint16 : D → Nat

/-- The struct `WeightedMinHasher` (lines 16-25). -/
structure WeightedMinHasher (F : Type) where
  /-- Size of each hash element in bits. -/
  Bitness : Int
  /-- The bag size. -/
  dim : Int
  /-- The hash length. -/
  sampleSize : Int
  /-- Table `rs`. -/
  rs : List (List F)
  /-- Table `lnCs`. -/
  lnCs : List (List F)
  /-- Table `betas`, entries are `uint16`. -/
  betas : List (List Nat)
deriving DecidableEq

/-- The ways a call of `Hash` ends without returning a slice: the three
`log.Fatalf` calls of the source, and a Go run-time panic (index out of range,
or `make` with a negative length). -/
inductive HashError (F : Type) where
  /-- Line 68: `negative value in the vector: v @ i`. -/
  | negativeValue (v : F) (i : Nat)
  /-- Line 73: `index is out of range: j @ vi`. -/
  | indexOutOfRange (j : Int) (vi : Nat)
  /-- Line 106: `unsupported bitness value: b`. -/
  | unsupportedBitness (b : Int)
  /-- A run-time panic of the Go runtime. -/
  | runtimePanic
deriving DecidableEq

/-- The slice read `xs[j]` at a Go `int` index: `none` is the run-time panic
for an index outside `[0, len(xs))`. -/
def index {α : Type} (xs : List α) (j : Int) : Option α :=
  if j < 0 then none else xs[j.toNat]?

/-- The table read `tbl[s][j]`. -/
def cell {α : Type} (tbl : List (List α)) (s : Nat) (j : Int) : Option α :=
  match tbl[s]? with
  | none => none
  | some row => index row j

/-- Lines 66-70: the first loop of `Hash`, from position `i` on. -/
def checkValues {F D : Type} (ops : FloatOps F D) :
    List F → Nat → Except (HashError F) Unit
  | [], _ => .ok ()
  | v :: vs, i =>
    if ops.lt v ops.zero = true then .error (.negativeValue v i)
    else checkValues ops vs (i + 1)

/-- Lines 71-75: the second loop of `Hash`, from position `vi` on. -/
def checkIndices {F : Type} (dim : Int) :
    List Int → Nat → Except (HashError F) Unit
  | [], _ => .ok ()
  | j :: js, vi =>
    if j ≥ dim then .error (.indexOutOfRange j vi)
    else checkIndices dim js (vi + 1)

/-- The three variables of the per-sample scan: `minLnA`, `k`, `minT`. -/
structure Sel (F : Type) where
  /-- The running minimum. -/
  minLnA : F
  /-- The selected index. -/
  k : Int
  /-- The selected exponent. -/
  minT : F
deriving DecidableEq

/-- Lines 78-80: the state at the start of each sample. -/
def Sel.init {F D : Type} (ops : FloatOps F D) : Sel F :=
  ⟨ops.maxFloat32, 0, ops.zero⟩

/-- Line 83: `beta`. -/
def betaOf {F D : Type} (ops : FloatOps F D) (b : Nat) : F :=
  ops.div (ops.ofNat b) (ops.ofNat maxUint16)

/-- Line 85: `t`, from `vlog`, `rs[s][j]` and `beta`. -/
def tOf {F D : Type} (ops : FloatOps F D) (vlog r beta : F) : F :=
  ops.toF32 (ops.floor64 (ops.toF64 (ops.add (ops.div vlog r) beta)))

/-- Line 87: `lnY`, from `t`, `beta` and `rs[s][j]`. -/
def lnYOf {F D : Type} (ops : FloatOps F D) (t beta r : F) : F :=
  ops.mul (ops.sub t beta) r

/-- Lines 87-89: `lnA`, from `t`, `beta`, `rs[s][j]` and `lnCs[s][j]`. -/
def lnAOf {F D : Type} (ops : FloatOps F D) (t beta r c : F) : F :=
  ops.sub (ops.sub c (lnYOf ops t beta r)) r

/-- Lines 82-89: the pair `(lnA, t)` computed for the input pair at position
`vi` with index `j` in sample `s`; `none` is a run-time panic of one of the
reads `values[vi]`, `betas[s][j]`, `rs[s][j]`, `lnCs[s][j]`. -/
def candidate {F D : Type} (ops : FloatOps F D) (h : WeightedMinHasher F)
    (values : List F) (s : Nat) (vi : Nat) (j : Int) : Option (F × F) :=
  match values[vi]? with
  | none => none
  | some v =>
    match cell h.betas s j with
    | none => none
    | some b =>
      match cell h.rs s j with
      | none => none
      | some r =>
        match cell h.lnCs s j with
        | none => none
        | some c =>
          let vlog := ops.log v
          let beta := betaOf ops b
          let t := tOf ops vlog r beta
          some (lnAOf ops t beta r c, t)

/-- Lines 91-95: the conditional update of the selection. -/
def update {F D : Type} (ops : FloatOps F D) (acc : Sel F) (j : Int)
    (lnA t : F) : Sel F :=
  if ops.lt lnA acc.minLnA = true then ⟨lnA, j, t⟩ else acc

/-- Lines 81-96: the inner loop over `indices`, from position `vi` on. -/
def scan {F D : Type} (ops : FloatOps F D) (h : WeightedMinHasher F)
    (values : List F) (s : Nat) :
    List Int → Nat → Sel F → Except (HashError F) (Sel F)
  | [], _, acc => .ok acc
  | j :: js, vi, acc =>
    match candidate ops h values s vi j with
    | none => .error .runtimePanic
    | some (lnA, t) => scan ops h values s js (vi + 1) (update ops acc j lnA t)

/-- Lines 98-107: the `switch` on `Bitness`. -/
def packWord {F D : Type} (ops : FloatOps F D) (bitness : Int) (k : Int)
    (minT : F) : Except (HashError F) Nat :=
  if bitness = 64 then
    .ok ((k % 2 ^ 64).toNat ||| ((ops.toUint 64 minT % 2 ^ 64) <<< 32) % 2 ^ 64)
  else if bitness = 32 then
    .ok ((k % 2 ^ 32).toNat ||| ((ops.toUint 32 minT % 2 ^ 32) <<< 16) % 2 ^ 32)
  else if bitness = 16 then
    .ok ((k % 2 ^ 16).toNat ||| ((ops.toUint 16 minT % 2 ^ 16) <<< 8) % 2 ^ 16)
  else .error (.unsupportedBitness bitness)

/-- Lines 78-107: the body of the loop over samples, for sample `s`. -/
def hashSample {F D : Type} (ops : FloatOps F D) (h : WeightedMinHasher F)
    (values : List F) (indices : List Int) (s : Nat) :
    Except (HashError F) Nat :=
  match scan ops h values s indices 0 (Sel.init ops) with
  | .error e => .error e
  | .ok sel => packWord ops h.Bitness sel.k sel.minT

/-- Lines 77-108: the loop over samples, `n` samples from sample `s` on. -/
def hashLoop {F D : Type} (ops : FloatOps F D) (h : WeightedMinHasher F)
    (values : List F) (indices : List Int) :
    Nat → Nat → Except (HashError F) (List Nat)
  | 0, _ => .ok []
  | n + 1, s =>
    match hashSample ops h values indices s with
    | .error e => .error e
    | .ok w =>
      match hashLoop ops h values indices n (s + 1) with
      | .error e => .error e
      | .ok ws => .ok (w :: ws)

/-- The method `Hash` (lines 65-110). -/
def Hash {F D : Type} (ops : FloatOps F D) (h : WeightedMinHasher F)
    (values : List F) (indices : List Int) : Except (HashError F) (List Nat) :=
  match checkValues ops values 0 with
  | .error e => .error e
  | .ok _ =>
    match checkIndices h.dim indices 0 with
    | .error e => .error e
    | .ok _ =>
      if h.sampleSize < 0 then .error .runtimePanic
      else hashLoop ops h values indices h.sampleSize.toNat 0

/-- The seeded source and the two samplers of `NewWeightedMinHasher`
(`golang.org/x/exp/rand`, `gonum.org/v1/gonum/stat/distuv`), as functions of
the state `G` of the source: each draw returns a `float64` and the next
state. -/
structure RandOps (G D : Type) where
  /-- The source `rand.New(rand.NewSource(s))` for a `uint64` seed `s`. -/
  newSource : Nat → G
  /-- One call `gammaGen.Rand()`, `Gamma{Alpha: 2, Beta: 1}`. -/
  gammaRand : G → D × G
  /-- One call `uniformGen.Rand()`, `Uniform{Min: 0, Max: 1}`. -/
  uniformRand : G → D × G

/-- The loop `for x := 0; x < dim; x++ { arr[x] = draw() }`: one row of `n`
cells, each from one call of `draw`, left to right. -/
def fillRow {G α : Type} (draw : G → α × G) : Nat → G → List α × G
  | 0, g => ([], g)
  | n + 1, g =>
    let d := draw g
    let rest := fillRow draw n d.2
    (d.1 :: rest.1, rest.2)

/-- The loop `for y := 0; y < sampleSize; y++ { ... }`: `m` rows of `n`
cells, row after row. -/
def fillTable {G α : Type} (draw : G → α × G) (n : Nat) :
    Nat → G → List (List α) × G
  | 0, g => ([], g)
  | m + 1, g =>
    let row := fillRow draw n g
    let rest := fillTable draw n m row.2
    (row.1 :: rest.1, rest.2)

/-- Line 40: `float32(gammaGen.Rand())`. -/
def drawR {F D G : Type} (ops : FloatOps F D) (R : RandOps G D) (g : G) :
    F × G :=
  let d := R.gammaRand g
  (ops.toF32 d.1, d.2)

/-- Line 48: `fastlog.Log(float32(gammaGen.Rand()))`. -/
def drawLnC {F D G : Type} (ops : FloatOps F D) (R : RandOps G D) (g : G) :
    F × G :=
  let d := R.gammaRand g
  (ops.log (ops.toF32 d.1), d.2)

/-- Line 57: `uint16(uniformGen.Rand() * maxUint16)`. -/
def drawBeta {F D G : Type} (ops : FloatOps F D) (R : RandOps G D) (g : G) :
    Nat × G :=
  let d := R.uniformRand g
  (ops.toUint16 (ops.mul64 d.1 (ops.ofNat64 maxUint16)) % 2 ^ 16, d.2)

/-- The function `NewWeightedMinHasher` (lines 31-61).  `none` is the run-time
panic of `make` with a negative length: `make([][]float32, sampleSize)` for
`sampleSize < 0`, or `make([]float32, dim)` for `dim < 0`, which runs only
when `sampleSize > 0`. -/
def NewWeightedMinHasher {F D G : Type} (ops : FloatOps F D) (R : RandOps G D)
    (dim sampleSize seed : Int) : Option (WeightedMinHasher F) :=
  if sampleSize < 0 then none
  else if 0 < sampleSize ∧ dim < 0 then none
  else
    let g0 := R.newSource (seed % 2 ^ 64).toNat
    let rs := fillTable (drawR ops R) dim.toNat sampleSize.toNat g0
    let lnCs := fillTable (drawLnC ops R) dim.toNat sampleSize.toNat rs.2
    let betas := fillTable (drawBeta ops R) dim.toNat sampleSize.toNat lnCs.2
    some ⟨64, dim, sampleSize, rs.1, lnCs.1, betas.1⟩

/-! ## A concrete instance: IEEE-754 values

The carrier holds NaN, the two infinities and the finite values as rationals
(the two zeros are one value, and a division by it takes it as `+0`, the only
zero a table built by `NewWeightedMinHasher` can hold).  Results are rounded to
nearest, ties to even, in binary32 or binary64. -/

/-- An IEEE-754 value. -/
inductive Fl where
  /-- Not a number. -/
  | nan
  /-- Minus infinity. -/
  | ninf
  /-- Plus infinity. -/
  | pinf
  /-- A finite value. -/
  | fin (q : ℚ)
deriving DecidableEq

namespace Fl

/-- The number of halvings that bring `n` below 2, at most `fuel` of them. -/
def halvings : Nat → Nat → Nat
  | 0, _ => 0
  | fuel + 1, n => if n < 2 then 0 else halvings fuel (n / 2) + 1

/-- The natural number `e` with `2 ^ e ≤ n < 2 ^ (e + 1)`, for `n ≠ 0`. -/
def natLog2 (n : Nat) : Nat := halvings n n

/-- The integer `e` with `2 ^ e ≤ |q| < 2 ^ (e + 1)`, for `q ≠ 0`. -/
def ilog2 (q : ℚ) : Int :=
  let e : Int := (natLog2 q.num.natAbs : Int) - (natLog2 q.den : Int)
  if (2 : ℚ) ^ e ≤ |q| then e else e - 1

/-- Rounding of a rational to the nearest integer, ties to even. -/
def roundHalfEven (q : ℚ) : Int :=
  let f := ⌊q⌋
  let r := q - f
  if r < 1 / 2 then f
  else if 1 / 2 < r then f + 1
  else if f % 2 = 0 then f else f + 1

/-- Rounding of a rational to the binary format of precision `p` and exponent
range `[emin, emax]`, with gradual underflow and overflow to infinity. -/
def round (p : Nat) (emin emax : Int) (q : ℚ) : Fl :=
  if q = 0 then fin 0
  else
    let e := max (ilog2 q) emin
    let ulp : ℚ := 2 ^ (e - ((p : Int) - 1))
    let r : ℚ := (roundHalfEven (q / ulp) : ℚ) * ulp
    if (2 : ℚ) ^ (emax + 1) ≤ |r| then (if 0 < q then pinf else ninf)
    else fin r

/-- Rounding to binary32. -/
def round32 (q : ℚ) : Fl := round 24 (-126) 127 q

/-- Rounding to binary64. -/
def round64 (q : ℚ) : Fl := round 53 (-1022) 1023 q

/-- The largest finite binary32 value, `math.MaxFloat32`. -/
def maxFloat32 : ℚ := (2 ^ 24 - 1) * 2 ^ 104

/-- The comparison `a < b`: false as soon as one side is NaN. -/
def lt : Fl → Fl → Bool
  | fin a, fin b => decide (a < b)
  | ninf, fin _ => true
  | ninf, pinf => true
  | fin _, pinf => true
  | _, _ => false

/-- The opposite of a value. -/
def neg : Fl → Fl
  | nan => nan
  | ninf => pinf
  | pinf => ninf
  | fin q => fin (-q)

/-- The sum, rounded by `rnd`. -/
def add (rnd : ℚ → Fl) : Fl → Fl → Fl
  | nan, _ => nan
  | _, nan => nan
  | pinf, ninf => nan
  | ninf, pinf => nan
  | pinf, _ => pinf
  | _, pinf => pinf
  | ninf, _ => ninf
  | _, ninf => ninf
  | fin a, fin b => rnd (a + b)

/-- The difference, rounded by `rnd`. -/
def sub (rnd : ℚ → Fl) (a b : Fl) : Fl := add rnd a (neg b)

/-- The infinity of the sign of `q`, NaN for `q = 0`. -/
def infOfSign (q : ℚ) : Fl :=
  if q = 0 then nan else if 0 < q then pinf else ninf

/-- The product, rounded by `rnd`. -/
def mul (rnd : ℚ → Fl) : Fl → Fl → Fl
  | nan, _ => nan
  | _, nan => nan
  | pinf, pinf => pinf
  | pinf, ninf => ninf
  | ninf, pinf => ninf
  | ninf, ninf => pinf
  | pinf, fin b => infOfSign b
  | ninf, fin b => infOfSign (-b)
  | fin a, pinf => infOfSign a
  | fin a, ninf => infOfSign (-a)
  | fin a, fin b => rnd (a * b)

/-- The quotient, rounded by `rnd`; a zero divisor is `+0`. -/
def div (rnd : ℚ → Fl) : Fl → Fl → Fl
  | nan, _ => nan
  | _, nan => nan
  | pinf, fin b => if 0 ≤ b then pinf else ninf
  | ninf, fin b => if 0 ≤ b then ninf else pinf
  | pinf, _ => nan
  | ninf, _ => nan
  | fin _, pinf => fin 0
  | fin _, ninf => fin 0
  | fin a, fin b => if b = 0 then infOfSign a else rnd (a / b)

/-- The function `math.Floor`. -/
def floor : Fl → Fl
  | fin q => fin (⌊q⌋ : Int)
  | x => x

/-- A conversion between the two formats: rounding by `rnd`. -/
def conv (rnd : ℚ → Fl) : Fl → Fl
  | fin q => rnd q
  | x => x

/-- The truncation toward zero of a rational. -/
def trunc (q : ℚ) : Int := if 0 ≤ q then ⌊q⌋ else ⌈q⌉

/-- The conversion to an unsigned integer of `w` bits: the truncation toward
zero when the type can represent it; otherwise Go leaves the result to the
implementation, here `oor w x`, reduced to `w` bits. -/
def toUint (oor : Nat → Fl → Nat) (w : Nat) : Fl → Nat
  | fin q =>
    if 0 ≤ trunc q ∧ trunc q < 2 ^ w then (trunc q).toNat
    else oor w (fin q) % 2 ^ w
  | x => oor w x % 2 ^ w

end Fl

/-- The primitives of the source over IEEE-754 values, for a given
`fastlog.Log` and a given result `oor` of the float-to-integer conversions
that Go leaves to the implementation. -/
def IEEE.ops (log : Fl → Fl) (oor : Nat → Fl → Nat) : FloatOps Fl Fl where
  zero := Fl.fin 0
  maxFloat32 := Fl.fin Fl.maxFloat32
  ofNat n := Fl.round32 n
  lt := Fl.lt
  add := Fl.add Fl.round32
  sub := Fl.sub Fl.round32
  mul := Fl.mul Fl.round32
  div := Fl.div Fl.round32
  toF64 := Fl.conv Fl.round64
  floor64 := Fl.floor
  toF32 := Fl.conv Fl.round32
  log := log
  toUint := Fl.toUint oor
  mul64 := Fl.mul Fl.round64
  ofNat64 n := Fl.round64 n
  toUint16 := Fl.toUint oor 16

/-! ## A second instance: exact arithmetic

The primitives over an ordered field with a floor function, every operation
exact and both float types the field itself. -/

/-- The truncation toward zero in an ordered field. -/
def Exact.trunc {K : Type} [LinearOrderedField K] [FloorRing K] (x : K) : Int :=
  if 0 ≤ x then ⌊x⌋ else ⌈x⌉

/-- The conversion to an unsigned integer of `w` bits in exact arithmetic:
the truncation toward zero when the type can represent it, otherwise the
value `oor w x` that Go leaves to the implementation, reduced to `w` bits. -/
def Exact.toUint {K : Type} [LinearOrderedField K] [FloorRing K]
    (oor : Nat → K → Nat) (w : Nat) (x : K) : Nat :=
  if 0 ≤ Exact.trunc x ∧ Exact.trunc x < 2 ^ w then (Exact.trunc x).toNat
  else oor w x % 2 ^ w

/-- The primitives of the source in exact arithmetic over `K`, for a given
logarithm. -/
def Exact.ops (K : Type) [LinearOrderedField K] [FloorRing K] (log : K → K)
    (oor : Nat → K → Nat) : FloatOps K K where
  zero := 0
  maxFloat32 := (2 ^ 24 - 1) * 2 ^ 104
  ofNat n := (n : K)
  lt a b := decide (a < b)
  add a b := a + b
  sub a b := a - b
  mul a b := a * b
  div a b := a / b
  toF64 x := x
  floor64 x := ((⌊x⌋ : Int) : K)
  toF32 x := x
  log := log
  toUint := Exact.toUint oor
  mul64 a b := a * b
  ofNat64 n := (n : K)
  toUint16 := Exact.toUint oor 16

/-! ## The numbering of the draws -/

/-- The state of the source after `n` calls of the sampler `draw`. -/
def afterDraws {G α : Type} (draw : G → α × G) (n : Nat) (g : G) : G :=
  (fun x => (draw x).2)^[n] g

/-- The value returned by call number `i`, counted from 0, of the sampler
`draw` on a source in state `g`. -/
def drawNo {G α : Type} (draw : G → α × G) (i : Nat) (g : G) : α :=
  (draw (afterDraws draw i g)).1

/-- Modelled from the spec: `fastlog.Log` (package
`licensedb/internal/fastlog`), of which the spec says only that it is "a fast
approximate natural-logarithm function over single-precision floats".  For a
positive finite `q = m * 2 ^ e` with `1 ≤ m < 2` it returns
`0.69314718 * (e + (m - 1))`, the piecewise-linear approximation of the
logarithm; the logarithm of zero is minus infinity, that of plus infinity is
plus infinity, and any other argument gives NaN. -/
def approxLn : Fl → Fl
  | Fl.fin q =>
    if 0 < q then
      Fl.round32 (69314718 / 100000000 * ((Fl.ilog2 q : ℚ) + (q / 2 ^ Fl.ilog2 q - 1)))
    else if q = 0 then Fl.ninf else Fl.nan
  | Fl.pinf => Fl.pinf
  | _ => Fl.nan

/-- The IEEE-754 primitives with `approxLn` for `fastlog.Log` and `0` for the
conversions that Go leaves to the implementation. -/
def IEEE.go : FloatOps Fl Fl := IEEE.ops approxLn (fun _ _ => 0)

/-- A deterministic stand-in for the seeded source and the samplers: the state
is a counter started at the seed, the Gamma draws cycle through
`1/2, 1, 3/2, 2, 5/2` and the Uniform draws through `0, 1/4, 1/2, 3/4`. -/
def counterRand : RandOps Nat Fl where
  newSource s := s
  gammaRand g := (Fl.fin (((g % 5 : Nat) : ℚ) / 2 + 1 / 2), g + 1)
  uniformRand g := (Fl.fin (((g % 4 : Nat) : ℚ) / 4), g + 1)

/-- A second stand-in with another state: the seed and the number of calls so
far, kept apart.  Its draws are those of `counterRand`. -/
def pairRand : RandOps (Nat × Nat) Fl where
  newSource s := (s, 0)
  gammaRand g :=
    (Fl.fin ((((g.1 + g.2) % 5 : Nat) : ℚ) / 2 + 1 / 2), (g.1, g.2 + 1))
  uniformRand g := (Fl.fin ((((g.1 + g.2) % 4 : Nat) : ℚ) / 4), (g.1, g.2 + 1))

/-- A hasher of dimension 4 with 2 samples and the default `Bitness`: the one
`NewWeightedMinHasher` builds from `counterRand` with seed 1. -/
def sampleHasher : WeightedMinHasher Fl :=
  ⟨64, 4, 2,
    [[Fl.fin 1, Fl.fin (3 / 2), Fl.fin 2, Fl.fin (5 / 2)],
      [Fl.fin (1 / 2), Fl.fin 1, Fl.fin (3 / 2), Fl.fin 2]],
    [[Fl.fin (7268175 / 8388608), Fl.fin (-1453635 / 2097152), Fl.fin 0,
        Fl.fin (1453635 / 4194304)],
      [Fl.fin (1453635 / 2097152), Fl.fin (7268175 / 8388608),
        Fl.fin (-1453635 / 2097152), Fl.fin 0]],
    [[16384, 32768, 49152, 0], [16384, 32768, 49152, 0]]⟩

/-- The hasher `sampleHasher` with `Bitness` set to the unsupported value 8. -/
def sampleHasher8 : WeightedMinHasher Fl :=
  ⟨8, sampleHasher.dim, sampleHasher.sampleSize, sampleHasher.rs,
    sampleHasher.lnCs, sampleHasher.betas⟩

/-- A hasher of dimension 257 with 1 sample and `Bitness = 16`: every `rs`
entry is 1, every `lnCs` entry and every `betas` entry is 0. -/
def wideHasher : WeightedMinHasher Fl :=
  ⟨16, 257, 1, [List.replicate 257 (Fl.fin 1)], [List.replicate 257 (Fl.fin 0)],
    [List.replicate 257 0]⟩

/-- A hasher of dimension 2 with 1 sample and the default `Bitness`, whose
`rs` entry for index 1 is the `float32` zero. -/
def zeroRHasher : WeightedMinHasher Fl :=
  ⟨64, 2, 1, [[Fl.fin 1, Fl.fin 0]], [[Fl.fin 0, Fl.fin 0]], [[0, 0]]⟩

/-- The hasher `sampleHasher` with its second row of `rs`, `lnCs` and `betas`
replaced by other values. -/
def sampleHasherRow1 : WeightedMinHasher Fl :=
  ⟨64, 4, 2,
    [[Fl.fin 1, Fl.fin (3 / 2), Fl.fin 2, Fl.fin (5 / 2)],
      [Fl.fin 3, Fl.fin 3, Fl.fin 3, Fl.fin 3]],
    [[Fl.fin (7268175 / 8388608), Fl.fin (-1453635 / 2097152), Fl.fin 0,
        Fl.fin (1453635 / 4194304)],
      [Fl.fin 1, Fl.fin 1, Fl.fin 1, Fl.fin 1]],
    [[16384, 32768, 49152, 0], [7, 7, 7, 7]]⟩

/-- A non-decreasing stand-in for the logarithm over the rationals:
`x - 1`, the tangent of the natural logarithm at 1. -/
def Exact.lin (x : ℚ) : ℚ := x - 1

/-- The exact primitives over the rationals, with `Exact.lin` for the
logarithm. -/
def Exact.q : FloatOps ℚ ℚ := Exact.ops ℚ Exact.lin (fun _ _ => 0)

/-- A hasher over the rationals, of dimension 2 with 1 sample. -/
def exactHasher : WeightedMinHasher ℚ :=
  ⟨64, 2, 1, [[1 / 2, 3 / 2]], [[1, 0]], [[16384, 32768]]⟩

/-! ## Predicates on hashers and inputs -/

/-- No value of the input is negative: the test `v < 0` fails on each. -/
def NoNegative {F D : Type} (ops : FloatOps F D) (values : List F) : Prop :=
  ∀ v ∈ values, ops.lt v ops.zero = false

/-- A table has `m` rows, each of length `n`. -/
def TableShape {α : Type} (tbl : List (List α)) (m : Int) (n : Int) : Prop :=
  (tbl.length : Int) = m ∧ ∀ row ∈ tbl, (row.length : Int) = n

/-- The three tables of the hasher have shape `sampleSize × dim`. -/
def Shaped {F : Type} (h : WeightedMinHasher F) : Prop :=
  TableShape h.rs h.sampleSize h.dim ∧ TableShape h.lnCs h.sampleSize h.dim ∧
    TableShape h.betas h.sampleSize h.dim

/-- The input vector of the data model: no negative value, every index in
`[0, dim)`, and a value for every index. -/
def ValidInput {F D : Type} (ops : FloatOps F D) (h : WeightedMinHasher F)
    (values : List F) (indices : List Int) : Prop :=
  NoNegative ops values ∧ indices.length ≤ values.length ∧
    ∀ j ∈ indices, 0 ≤ j ∧ j < h.dim

/-- The supported values of `Bitness`. -/
def Supported (b : Int) : Prop := b = 16 ∨ b = 32 ∨ b = 64

/-- A comparison is a strict weak order on the values that satisfy `S`:
irreflexive, transitive, and with a transitive incomparability.  The
comparison of IEEE-754 values is one on the values other than NaN. -/
structure StrictWeakOn {F : Type} (lt : F → F → Bool) (S : F → Prop) : Prop where
  /-- No value is below itself. -/
  irrefl : ∀ a, S a → lt a a = false
  /-- Transitivity. -/
  trans : ∀ a b c, S a → S b → S c → lt a b = true → lt b c = true → lt a c = true
  /-- A value below `c` is below `b`, or `b` is below `c`. -/
  cotrans : ∀ a b c, S a → S b → S c → lt a c = true → lt a b = true ∨ lt b c = true

/-- The pair at position `p` of `js`, read from position `vi` on, has index
`j`, and the source computes `lnA = a` and `t` for it in sample `s`. -/
def CandAt {F D : Type} (ops : FloatOps F D) (h : WeightedMinHasher F)
    (values : List F) (s : Nat) (js : List Int) (vi p : Nat) (j : Int)
    (a t : F) : Prop :=
  js[p]? = some j ∧ candidate ops h values s (vi + p) j = some (a, t)

/-- The scan of sample `s` selects the pair at position `p`: its `lnA` is
below the initial minimum, no pair has a smaller `lnA`, and every earlier pair
has a strictly larger one. -/
def SelectsAt {F D : Type} (ops : FloatOps F D) (h : WeightedMinHasher F)
    (values : List F) (s : Nat) (indices : List Int) (p : Nat) : Prop :=
  ∃ j a t, CandAt ops h values s indices 0 p j a t ∧
    ops.lt a ops.maxFloat32 = true ∧
    (∀ q j1 a1 t1, CandAt ops h values s indices 0 q j1 a1 t1 →
      ops.lt a1 a = false) ∧
    (∀ q j1 a1 t1, q < p → CandAt ops h values s indices 0 q j1 a1 t1 →
      ops.lt a a1 = true)

/-! ## Input validation -/

theorem checkValues_ok {F D : Type} (ops : FloatOps F D) (vs : List F) (i : Nat)
    (hv : NoNegative ops vs) : checkValues ops vs i = .ok () := by
  induction vs generalizing i with
  | nil => rfl
  | cons v vs ih =>
    have h1 : ops.lt v ops.zero = false := hv v (List.mem_cons_self _ _)
    have h2 : NoNegative ops vs := fun w hw => hv w (List.mem_cons_of_mem _ hw)
    simp [checkValues, h1, ih (i + 1) h2]

theorem checkValues_first {F D : Type} (ops : FloatOps F D) (vs : List F)
    (i : Nat) (hv : ∃ v ∈ vs, ops.lt v ops.zero = true) :
    ∃ p v, vs[p]? = some v ∧ ops.lt v ops.zero = true ∧
      (∀ q w, q < p → vs[q]? = some w → ops.lt w ops.zero = false) ∧
      checkValues ops vs i = .error (.negativeValue v (i + p)) := by
  induction vs generalizing i with
  | nil => simp at hv
  | cons v vs ih =>
    by_cases h1 : ops.lt v ops.zero = true
    · refine ⟨0, v, by simp, h1, ?_, by simp [checkValues, h1]⟩
      intro q w hq
      omega
    · have h2 : ∃ w ∈ vs, ops.lt w ops.zero = true := by
        obtain ⟨w, hw, hlt⟩ := hv
        rcases List.mem_cons.mp hw with rfl | hw
        · exact absurd hlt h1
        · exact ⟨w, hw, hlt⟩
      obtain ⟨p, w, hp, hw, hbefore, hres⟩ := ih (i + 1) h2
      refine ⟨p + 1, w, by simpa using hp, hw, ?_, ?_⟩
      · intro q u hq hu
        cases q with
        | zero =>
          simp at hu
          subst hu
          simpa using h1
        | succ q => exact hbefore q u (by omega) (by simpa using hu)
      · have e : i + 1 + p = i + (p + 1) := by omega
        simp [checkValues, h1, hres, e]

theorem checkIndices_ok {F : Type} (dim : Int) (js : List Int) (vi : Nat)
    (hj : ∀ j ∈ js, j < dim) :
    checkIndices dim js vi = (.ok () : Except (HashError F) Unit) := by
  induction js generalizing vi with
  | nil => rfl
  | cons j js ih =>
    have h1 : ¬ j ≥ dim := not_le.mpr (hj j (List.mem_cons_self _ _))
    have h2 : ∀ k ∈ js, k < dim := fun k hk => hj k (List.mem_cons_of_mem _ hk)
    simp only [checkIndices, h1, if_false]
    exact ih (vi + 1) h2

theorem checkIndices_first {F : Type} (dim : Int) (js : List Int) (vi : Nat)
    (hj : ∃ j ∈ js, j ≥ dim) :
    ∃ p j, js[p]? = some j ∧ j ≥ dim ∧
      (∀ q k, q < p → js[q]? = some k → k < dim) ∧
      checkIndices dim js vi =
        (.error (.indexOutOfRange j (vi + p)) : Except (HashError F) Unit) := by
  induction js generalizing vi with
  | nil => simp at hj
  | cons j js ih =>
    by_cases h1 : j ≥ dim
    · refine ⟨0, j, by simp, h1, ?_, by simp [checkIndices, h1]⟩
      intro q w hq
      omega
    · have h2 : ∃ k ∈ js, k ≥ dim := by
        obtain ⟨k, hk, hge⟩ := hj
        rcases List.mem_cons.mp hk with rfl | hk
        · exact absurd hge h1
        · exact ⟨k, hk, hge⟩
      obtain ⟨p, k, hp, hk, hbefore, hres⟩ := ih (vi + 1) h2
      refine ⟨p + 1, k, by simpa using hp, hk, ?_, ?_⟩
      · intro q u hq hu
        cases q with
        | zero =>
          simp at hu
          subst hu
          exact not_le.mp h1
        | succ q => exact hbefore q u (by omega) (by simpa using hu)
      · have e : vi + 1 + p = vi + (p + 1) := by omega
        simp [checkIndices, h1, hres, e]

/-! ## Reads of the tables -/

theorem index_some {α : Type} (xs : List α) (j : Int) (h0 : 0 ≤ j)
    (h1 : j < (xs.length : Int)) : ∃ x, index xs j = some x := by
  have hj : j.toNat < xs.length := by omega
  refine ⟨xs[j.toNat], ?_⟩
  simp [index, not_lt.mpr h0, List.getElem?_eq_getElem hj]

theorem index_neg {α : Type} (xs : List α) (j : Int) (h0 : j < 0) :
    index xs j = none := by
  simp [index, h0]

theorem cell_some {α : Type} (tbl : List (List α)) (m n : Int)
    (ht : TableShape tbl m n) (s : Nat) (hs : (s : Int) < m) (j : Int)
    (h0 : 0 ≤ j) (h1 : j < n) : ∃ x, cell tbl s j = some x := by
  obtain ⟨hlen, hrows⟩ := ht
  have hs2 : s < tbl.length := by omega
  have hrow : ((tbl[s]).length : Int) = n := hrows _ (List.getElem_mem hs2)
  obtain ⟨x, hx⟩ := index_some (tbl[s]) j h0 (by omega)
  exact ⟨x, by simp [cell, List.getElem?_eq_getElem hs2, hx]⟩

theorem cell_neg {α : Type} (tbl : List (List α)) (s : Nat) (j : Int)
    (h0 : j < 0) : cell tbl s j = none := by
  unfold cell
  cases tbl[s]? with
  | none => rfl
  | some row => exact index_neg row j h0

theorem candidate_some {F D : Type} (ops : FloatOps F D)
    (h : WeightedMinHasher F) (values : List F) (s vi : Nat) (j : Int)
    (hsh : Shaped h) (hs : (s : Int) < h.sampleSize) (hvi : vi < values.length)
    (h0 : 0 ≤ j) (h1 : j < h.dim) :
    ∃ a t, candidate ops h values s vi j = some (a, t) := by
  obtain ⟨hr, hc, hb⟩ := hsh
  obtain ⟨b, hb⟩ := cell_some h.betas _ _ hb s hs j h0 h1
  obtain ⟨r, hr⟩ := cell_some h.rs _ _ hr s hs j h0 h1
  obtain ⟨c, hc⟩ := cell_some h.lnCs _ _ hc s hs j h0 h1
  simp [candidate, List.getElem?_eq_getElem hvi, hb, hr, hc]

theorem candidate_neg {F D : Type} (ops : FloatOps F D)
    (h : WeightedMinHasher F) (values : List F) (s vi : Nat) (j : Int)
    (h0 : j < 0) : candidate ops h values s vi j = none := by
  unfold candidate
  cases values[vi]? with
  | none => rfl
  | some v => simp [cell_neg h.betas s j h0]

/-! ## The per-sample scan -/

theorem scan_ok {F D : Type} (ops : FloatOps F D) (h : WeightedMinHasher F)
    (values : List F) (s : Nat) (js : List Int) (vi : Nat) (acc : Sel F)
    (hsh : Shaped h) (hs : (s : Int) < h.sampleSize)
    (hlen : vi + js.length ≤ values.length)
    (hj : ∀ j ∈ js, 0 ≤ j ∧ j < h.dim) :
    ∃ sel, scan ops h values s js vi acc = .ok sel := by
  induction js generalizing vi acc with
  | nil => exact ⟨acc, rfl⟩
  | cons j js ih =>
    have hlen2 : vi + 1 + js.length ≤ values.length := by
      simp only [List.length_cons] at hlen
      omega
    obtain ⟨hj0, hj1⟩ := hj j (List.mem_cons_self _ _)
    obtain ⟨a, t, hc⟩ :=
      candidate_some ops h values s vi j hsh hs (by omega) hj0 hj1
    obtain ⟨sel, hsel⟩ := ih (vi + 1) (update ops acc j a t) hlen2
      (fun k hk => hj k (List.mem_cons_of_mem _ hk))
    exact ⟨sel, by simp [scan, hc, hsel]⟩

theorem candAt_zero {F D : Type} (ops : FloatOps F D) (h : WeightedMinHasher F)
    (values : List F) (s : Nat) (j : Int) (js : List Int) (vi : Nat)
    (j1 : Int) (a t : F) :
    CandAt ops h values s (j :: js) vi 0 j1 a t ↔
      j1 = j ∧ candidate ops h values s vi j = some (a, t) := by
  unfold CandAt
  constructor
  · rintro ⟨h1, h2⟩
    simp at h1
    subst h1
    exact ⟨rfl, by simpa using h2⟩
  · rintro ⟨rfl, h2⟩
    exact ⟨by simp, by simpa using h2⟩

theorem candAt_succ {F D : Type} (ops : FloatOps F D) (h : WeightedMinHasher F)
    (values : List F) (s : Nat) (j : Int) (js : List Int) (vi p : Nat)
    (j1 : Int) (a t : F) :
    CandAt ops h values s (j :: js) vi (p + 1) j1 a t ↔
      CandAt ops h values s js (vi + 1) p j1 a t := by
  unfold CandAt
  have e : vi + (p + 1) = vi + 1 + p := by omega
  simp [e]

/-- What the scan leaves when it starts from `acc`: either `acc` itself, no
pair being below its minimum, or the triple of one pair of the input, the last
one that replaced the selection. -/
theorem scan_sel {F D : Type} (ops : FloatOps F D) (h : WeightedMinHasher F)
    (values : List F) (s : Nat) (js : List Int) (vi : Nat) (acc sel : Sel F)
    (hscan : scan ops h values s js vi acc = .ok sel) :
    (sel = acc ∧ ∀ p j a t, CandAt ops h values s js vi p j a t →
        ops.lt a acc.minLnA = false) ∨
    ((∃ p j a t, CandAt ops h values s js vi p j a t ∧ sel = ⟨a, j, t⟩) ∧
      ∃ q j1 a1 t1, CandAt ops h values s js vi q j1 a1 t1 ∧
        ops.lt a1 acc.minLnA = true) := by
  induction js generalizing vi acc with
  | nil =>
    left
    refine ⟨by simpa [scan] using hscan.symm, ?_⟩
    intro p j a t hc
    simp [CandAt] at hc
  | cons j js ih =>
    cases hc : candidate ops h values s vi j with
    | none => simp [scan, hc] at hscan
    | some at0 =>
      obtain ⟨a0, t0⟩ := at0
      simp only [scan, hc] at hscan
      rcases ih (vi + 1) (update ops acc j a0 t0) hscan with
        ⟨he, hno⟩ | ⟨⟨p, j1, a, t, hp, he⟩, q, j2, a2, t2, hq, hlt2⟩
      · by_cases hlt : ops.lt a0 acc.minLnA = true
        · right
          refine ⟨⟨0, j, a0, t0, (candAt_zero ..).2 ⟨rfl, hc⟩, ?_⟩,
            0, j, a0, t0, (candAt_zero ..).2 ⟨rfl, hc⟩, hlt⟩
          simp [he, update, hlt]
        · left
          have hu : update ops acc j a0 t0 = acc := by simp [update, hlt]
          rw [hu] at he hno
          refine ⟨he, ?_⟩
          intro p j1 a t hp
          cases p with
          | zero =>
            obtain ⟨-, h2⟩ := (candAt_zero ..).1 hp
            rw [hc] at h2
            cases h2
            simpa using hlt
          | succ p => exact hno p j1 a t ((candAt_succ ..).1 hp)
      · right
        refine ⟨⟨p + 1, j1, a, t, (candAt_succ ..).2 hp, he⟩, ?_⟩
        by_cases hlt : ops.lt a0 acc.minLnA = true
        · exact ⟨0, j, a0, t0, (candAt_zero ..).2 ⟨rfl, hc⟩, hlt⟩
        · have hu : update ops acc j a0 t0 = acc := by simp [update, hlt]
          rw [hu] at hlt2
          exact ⟨q + 1, j2, a2, t2, (candAt_succ ..).2 hq, hlt2⟩

/-- The selection of the scan under a strict weak order: when the scan from
`acc` replaces the selection at all, it ends on a pair whose `lnA` no pair is
below, and every earlier pair has a strictly larger `lnA`. -/
theorem scan_min {F D : Type} (ops : FloatOps F D) (h : WeightedMinHasher F)
    (values : List F) (s : Nat) (S : F → Prop) (hS : StrictWeakOn ops.lt S)
    (js : List Int) (vi : Nat) (acc sel : Sel F) (hacc : S acc.minLnA)
    (hall : ∀ p j a t, CandAt ops h values s js vi p j a t → S a)
    (hscan : scan ops h values s js vi acc = .ok sel) :
    (sel = acc ∧ ∀ p j a t, CandAt ops h values s js vi p j a t →
        ops.lt a acc.minLnA = false) ∨
    (∃ p j a t, CandAt ops h values s js vi p j a t ∧ sel = ⟨a, j, t⟩ ∧
      ops.lt a acc.minLnA = true ∧
      (∀ q j1 a1 t1, CandAt ops h values s js vi q j1 a1 t1 →
        ops.lt a1 a = false) ∧
      (∀ q j1 a1 t1, q < p → CandAt ops h values s js vi q j1 a1 t1 →
        ops.lt a a1 = true)) := by
  induction js generalizing vi acc with
  | nil =>
    left
    refine ⟨by simpa [scan] using hscan.symm, ?_⟩
    intro p j a t hc
    simp [CandAt] at hc
  | cons j js ih =>
    cases hc : candidate ops h values s vi j with
    | none => simp [scan, hc] at hscan
    | some at0 =>
      obtain ⟨a0, t0⟩ := at0
      simp only [scan, hc] at hscan
      have hS0 : S a0 := hall 0 j a0 t0 ((candAt_zero ..).2 ⟨rfl, hc⟩)
      have hall2 : ∀ p j1 a t, CandAt ops h values s js (vi + 1) p j1 a t → S a :=
        fun p j1 a t hp => hall (p + 1) j1 a t ((candAt_succ ..).2 hp)
      by_cases hlt : ops.lt a0 acc.minLnA = true
      · have hu : update ops acc j a0 t0 = ⟨a0, j, t0⟩ := by simp [update, hlt]
        rw [hu] at hscan
        right
        rcases ih (vi + 1) ⟨a0, j, t0⟩ hS0 hall2 hscan with
          ⟨he, hno⟩ | ⟨p, j1, a, t, hp, he, hlt2, hmin, hear⟩
        · refine ⟨0, j, a0, t0, (candAt_zero ..).2 ⟨rfl, hc⟩, he, hlt, ?_, ?_⟩
          · intro q j1 a1 t1 hq
            cases q with
            | zero =>
              obtain ⟨-, h2⟩ := (candAt_zero ..).1 hq
              rw [hc] at h2
              cases h2
              exact hS.irrefl a0 hS0
            | succ q => exact hno q j1 a1 t1 ((candAt_succ ..).1 hq)
          · intro q j1 a1 t1 hq
            omega
        · have hSa : S a := hall2 p j1 a t hp
          have hlt2 : ops.lt a a0 = true := hlt2
          refine ⟨p + 1, j1, a, t, (candAt_succ ..).2 hp, he,
            hS.trans a a0 _ hSa hS0 hacc hlt2 hlt, ?_, ?_⟩
          · intro q j2 a1 t1 hq
            cases q with
            | zero =>
              obtain ⟨-, h2⟩ := (candAt_zero ..).1 hq
              rw [hc] at h2
              cases h2
              cases hx : ops.lt a0 a with
              | false => rfl
              | true =>
                have := hS.trans a a0 a hSa hS0 hSa hlt2 hx
                rw [hS.irrefl a hSa] at this
                cases this
            | succ q => exact hmin q j2 a1 t1 ((candAt_succ ..).1 hq)
          · intro q j2 a1 t1 hq hcq
            cases q with
            | zero =>
              obtain ⟨-, h2⟩ := (candAt_zero ..).1 hcq
              rw [hc] at h2
              cases h2
              exact hlt2
            | succ q =>
              exact hear q j2 a1 t1 (by omega) ((candAt_succ ..).1 hcq)
      · have hu : update ops acc j a0 t0 = acc := by simp [update, hlt]
        rw [hu] at hscan
        have hlt0 : ops.lt a0 acc.minLnA = false := by simpa using hlt
        rcases ih (vi + 1) acc hacc hall2 hscan with
          ⟨he, hno⟩ | ⟨p, j1, a, t, hp, he, hlt2, hmin, hear⟩
        · left
          refine ⟨he, ?_⟩
          intro p j1 a t hp
          cases p with
          | zero =>
            obtain ⟨-, h2⟩ := (candAt_zero ..).1 hp
            rw [hc] at h2
            cases h2
            exact hlt0
          | succ p => exact hno p j1 a t ((candAt_succ ..).1 hp)
        · right
          have hSa : S a := hall2 p j1 a t hp
          refine ⟨p + 1, j1, a, t, (candAt_succ ..).2 hp, he, hlt2, ?_, ?_⟩
          · intro q j2 a1 t1 hq
            cases q with
            | zero =>
              obtain ⟨-, h2⟩ := (candAt_zero ..).1 hq
              rw [hc] at h2
              cases h2
              cases hx : ops.lt a0 a with
              | false => rfl
              | true =>
                have := hS.trans a0 a _ hS0 hSa hacc hx hlt2
                rw [hlt0] at this
                cases this
            | succ q => exact hmin q j2 a1 t1 ((candAt_succ ..).1 hq)
          · intro q j2 a1 t1 hq hcq
            cases q with
            | zero =>
              obtain ⟨-, h2⟩ := (candAt_zero ..).1 hcq
              rw [hc] at h2
              cases h2
              rcases hS.cotrans a a0 _ hSa hS0 hacc hlt2 with h3 | h3
              · exact h3
              · rw [hlt0] at h3
                cases h3
            | succ q =>
              exact hear q j2 a1 t1 (by omega) ((candAt_succ ..).1 hcq)

/-! ## The loop over samples -/

theorem hashLoop_length {F D : Type} (ops : FloatOps F D)
    (h : WeightedMinHasher F) (values : List F) (indices : List Int)
    (n s : Nat) (ws : List Nat)
    (hl : hashLoop ops h values indices n s = .ok ws) : ws.length = n := by
  induction n generalizing s ws with
  | zero =>
    simp [hashLoop] at hl
    simp [← hl]
  | succ n ih =>
    simp only [hashLoop] at hl
    cases h1 : hashSample ops h values indices s with
    | error e => simp [h1] at hl
    | ok w =>
      cases h2 : hashLoop ops h values indices n (s + 1) with
      | error e => simp [h1, h2] at hl
      | ok ws2 =>
        simp [h1, h2] at hl
        simp [← hl, ih (s + 1) ws2 h2]

theorem hashLoop_get {F D : Type} (ops : FloatOps F D)
    (h : WeightedMinHasher F) (values : List F) (indices : List Int)
    (n s : Nat) (ws : List Nat)
    (hl : hashLoop ops h values indices n s = .ok ws) (i : Nat) (hi : i < n) :
    ∃ w, ws[i]? = some w ∧ hashSample ops h values indices (s + i) = .ok w := by
  induction n generalizing s ws i with
  | zero => omega
  | succ n ih =>
    simp only [hashLoop] at hl
    cases h1 : hashSample ops h values indices s with
    | error e => simp [h1] at hl
    | ok w =>
      cases h2 : hashLoop ops h values indices n (s + 1) with
      | error e => simp [h1, h2] at hl
      | ok ws2 =>
        simp [h1, h2] at hl
        subst hl
        cases i with
        | zero => exact ⟨w, by simp, by simpa using h1⟩
        | succ i =>
          obtain ⟨w2, hw2, hs2⟩ := ih (s + 1) ws2 h2 i (by omega)
          have e : s + (i + 1) = s + 1 + i := by omega
          exact ⟨w2, by simpa using hw2, by rw [e]; exact hs2⟩

theorem hashLoop_ok {F D : Type} (ops : FloatOps F D)
    (h : WeightedMinHasher F) (values : List F) (indices : List Int)
    (n s : Nat)
    (hall : ∀ i, i < n → ∃ w, hashSample ops h values indices (s + i) = .ok w) :
    ∃ ws, hashLoop ops h values indices n s = .ok ws := by
  induction n generalizing s with
  | zero => exact ⟨[], rfl⟩
  | succ n ih =>
    obtain ⟨w, hw⟩ := hall 0 (by omega)
    have hrest : ∀ i, i < n →
        ∃ w, hashSample ops h values indices (s + 1 + i) = .ok w := by
      intro i hi
      obtain ⟨w2, hw2⟩ := hall (i + 1) (by omega)
      have e : s + (i + 1) = s + 1 + i := by omega
      exact ⟨w2, by rw [← e]; exact hw2⟩
    obtain ⟨ws, hws⟩ := ih (s + 1) hrest
    have hw0 : hashSample ops h values indices s = .ok w := by simpa using hw
    exact ⟨w :: ws, by simp [hashLoop, hw0, hws]⟩

theorem hashLoop_first_error {F D : Type} (ops : FloatOps F D)
    (h : WeightedMinHasher F) (values : List F) (indices : List Int)
    (n s : Nat) (e : HashError F)
    (he : hashSample ops h values indices s = .error e) :
    hashLoop ops h values indices (n + 1) s = .error e := by
  simp [hashLoop, he]

/-! ## The method `Hash` -/

theorem Hash_eq_loop {F D : Type} (ops : FloatOps F D)
    (h : WeightedMinHasher F) (values : List F) (indices : List Int)
    (hv : NoNegative ops values) (hj : ∀ j ∈ indices, j < h.dim)
    (hn : 0 ≤ h.sampleSize) :
    Hash ops h values indices =
      hashLoop ops h values indices h.sampleSize.toNat 0 := by
  simp [Hash, checkValues_ok ops values 0 hv, checkIndices_ok h.dim indices 0 hj,
    not_lt.mpr hn]

theorem Hash_ok_length {F D : Type} (ops : FloatOps F D)
    (h : WeightedMinHasher F) (values : List F) (indices : List Int)
    (r : List Nat) (hr : Hash ops h values indices = .ok r) :
    (r.length : Int) = h.sampleSize := by
  unfold Hash at hr
  cases h1 : checkValues ops values 0 with
  | error e => simp [h1] at hr
  | ok u =>
    cases h2 : (checkIndices h.dim indices 0 : Except (HashError F) Unit) with
    | error e => simp [h1, h2] at hr
    | ok u2 =>
      simp only [h1, h2] at hr
      by_cases hn : h.sampleSize < 0
      · simp [hn] at hr
      · simp only [hn, if_false] at hr
        have := hashLoop_length ops h values indices _ _ r hr
        omega

theorem packWord_ok {F D : Type} (ops : FloatOps F D) (b k : Int) (t : F)
    (hb : Supported b) : ∃ w, packWord ops b k t = .ok w := by
  rcases hb with rfl | rfl | rfl <;> simp [packWord]

theorem packWord_unsupported {F D : Type} (ops : FloatOps F D) (b k : Int)
    (t : F) (hb : ¬ Supported b) :
    packWord ops b k t = .error (.unsupportedBitness b) := by
  have h64 : ¬ b = 64 := fun e => hb (Or.inr (Or.inr e))
  have h32 : ¬ b = 32 := fun e => hb (Or.inr (Or.inl e))
  have h16 : ¬ b = 16 := fun e => hb (Or.inl e)
  simp [packWord, h64, h32, h16]

theorem scan_valid {F D : Type} (ops : FloatOps F D) (h : WeightedMinHasher F)
    (values : List F) (indices : List Int) (s : Nat) (hsh : Shaped h)
    (hin : ValidInput ops h values indices) (hs : (s : Int) < h.sampleSize) :
    ∃ sel, scan ops h values s indices 0 (Sel.init ops) = .ok sel :=
  scan_ok ops h values s indices 0 _ hsh hs (by simpa using hin.2.1) hin.2.2

theorem Hash_valid_ok {F D : Type} (ops : FloatOps F D)
    (h : WeightedMinHasher F) (values : List F) (indices : List Int)
    (hsh : Shaped h) (hin : ValidInput ops h values indices)
    (hb : Supported h.Bitness) : ∃ r, Hash ops h values indices = .ok r := by
  have hn : 0 ≤ h.sampleSize := by
    have := hsh.1.1
    omega
  rw [Hash_eq_loop ops h values indices hin.1 (fun j hj => (hin.2.2 j hj).2) hn]
  apply hashLoop_ok
  intro i hi
  obtain ⟨sel, hsel⟩ := scan_valid ops h values indices (0 + i) hsh hin (by omega)
  obtain ⟨w, hw⟩ := packWord_ok ops h.Bitness sel.k sel.minT hb
  exact ⟨w, by simp only [hashSample, hsel, hw]⟩

theorem scan_negative_index {F D : Type} (ops : FloatOps F D)
    (h : WeightedMinHasher F) (values : List F) (s : Nat) (js : List Int)
    (vi : Nat) (acc : Sel F) (hneg : ∃ j ∈ js, j < 0) :
    scan ops h values s js vi acc = .error .runtimePanic := by
  induction js generalizing vi acc with
  | nil => simp at hneg
  | cons j js ih =>
    cases hc : candidate ops h values s vi j with
    | none => simp [scan, hc]
    | some at0 =>
      have hj : ¬ j < 0 := by
        intro hj
        rw [candidate_neg ops h values s vi j hj] at hc
        cases hc
      have hneg2 : ∃ k ∈ js, k < 0 := by
        obtain ⟨k, hk, hk0⟩ := hneg
        rcases List.mem_cons.mp hk with rfl | hk
        · exact absurd hk0 hj
        · exact ⟨k, hk, hk0⟩
      simp only [scan, hc]
      exact ih (vi + 1) _ hneg2

/-- A negative index passes the check of lines 71-75 and the first sample
then panics on the read of the tables. -/
theorem Hash_negative_index {F D : Type} (ops : FloatOps F D)
    (h : WeightedMinHasher F) (values : List F) (indices : List Int)
    (hv : NoNegative ops values) (hj : ∀ j ∈ indices, j < h.dim)
    (hn : 0 < h.sampleSize) (hneg : ∃ j ∈ indices, j < 0) :
    Hash ops h values indices = .error .runtimePanic := by
  rw [Hash_eq_loop ops h values indices hv hj (by omega)]
  obtain ⟨n, hn2⟩ : ∃ n, h.sampleSize.toNat = n + 1 :=
    ⟨h.sampleSize.toNat - 1, by omega⟩
  rw [hn2]
  apply hashLoop_first_error
  simp [hashSample, scan_negative_index ops h values 0 indices 0 _ hneg]

theorem Hash_get {F D : Type} (ops : FloatOps F D) (h : WeightedMinHasher F)
    (values : List F) (indices : List Int) (r : List Nat)
    (hr : Hash ops h values indices = .ok r) (s : Nat)
    (hs : (s : Int) < h.sampleSize) :
    ∃ w sel, r[s]? = some w ∧
      scan ops h values s indices 0 (Sel.init ops) = .ok sel ∧
      packWord ops h.Bitness sel.k sel.minT = .ok w := by
  unfold Hash at hr
  cases h1 : checkValues ops values 0 with
  | error e => simp [h1] at hr
  | ok u =>
    cases h2 : (checkIndices h.dim indices 0 : Except (HashError F) Unit) with
    | error e => simp [h1, h2] at hr
    | ok u2 =>
      simp only [h1, h2] at hr
      by_cases hn : h.sampleSize < 0
      · simp [hn] at hr
      · simp only [hn, if_false] at hr
        obtain ⟨w, hw, hsample⟩ :=
          hashLoop_get ops h values indices _ _ r hr s (by omega)
        rw [Nat.zero_add] at hsample
        unfold hashSample at hsample
        cases h3 : scan ops h values s indices 0 (Sel.init ops) with
        | error e => simp [h3] at hsample
        | ok sel =>
          rw [h3] at hsample
          exact ⟨w, sel, hw, rfl, hsample⟩

/-! ## The constructor -/

theorem fillRow_length {G α : Type} (draw : G → α × G) (n : Nat) (g : G) :
    (fillRow draw n g).1.length = n := by
  induction n generalizing g with
  | zero => rfl
  | succ n ih => simp [fillRow, ih]

theorem fillTable_shape {G α : Type} (draw : G → α × G) (n m : Nat) (g : G) :
    (fillTable draw n m g).1.length = m ∧
      ∀ row ∈ (fillTable draw n m g).1, row.length = n := by
  induction m generalizing g with
  | zero => simp [fillTable]
  | succ m ih =>
    obtain ⟨h1, h2⟩ := ih (fillRow draw n g).2
    refine ⟨by simp [fillTable, h1], ?_⟩
    intro row hrow
    simp only [fillTable, List.mem_cons] at hrow
    rcases hrow with rfl | hrow
    · exact fillRow_length draw n g
    · exact h2 row hrow

theorem fillTable_tableShape {G α : Type} (draw : G → α × G) (dim sampleSize : Int)
    (hd : 0 ≤ dim) (hs : 0 ≤ sampleSize) (g : G) :
    TableShape (fillTable draw dim.toNat sampleSize.toNat g).1 sampleSize dim := by
  obtain ⟨h1, h2⟩ := fillTable_shape draw dim.toNat sampleSize.toNat g
  refine ⟨by omega, ?_⟩
  intro row hrow
  have := h2 row hrow
  omega

theorem NewWeightedMinHasher_eq {F D G : Type} (ops : FloatOps F D)
    (R : RandOps G D) (dim sampleSize seed : Int) (hd : 0 ≤ dim)
    (hs : 0 ≤ sampleSize) :
    NewWeightedMinHasher ops R dim sampleSize seed =
      some ⟨64, dim, sampleSize,
        (fillTable (drawR ops R) dim.toNat sampleSize.toNat
          (R.newSource (seed % 2 ^ 64).toNat)).1,
        (fillTable (drawLnC ops R) dim.toNat sampleSize.toNat
          (fillTable (drawR ops R) dim.toNat sampleSize.toNat
            (R.newSource (seed % 2 ^ 64).toNat)).2).1,
        (fillTable (drawBeta ops R) dim.toNat sampleSize.toNat
          (fillTable (drawLnC ops R) dim.toNat sampleSize.toNat
            (fillTable (drawR ops R) dim.toNat sampleSize.toNat
              (R.newSource (seed % 2 ^ 64).toNat)).2).2).1⟩ := by
  simp [NewWeightedMinHasher, not_lt.mpr hs, not_lt.mpr hd]

/-! ## The IEEE-754 instance -/

theorem Fl.lt_strictWeak : StrictWeakOn Fl.lt (fun x => x ≠ Fl.nan) := by
  refine ⟨?_, ?_, ?_⟩
  · intro a _
    cases a <;> simp [Fl.lt]
  · intro a b c _ _ _
    cases a <;> cases b <;> cases c <;> simp [Fl.lt]
    exact fun h1 h2 => lt_trans h1 h2
  · intro a b c ha hb hc
    cases a <;> cases b <;> cases c <;> simp_all [Fl.lt]
    exact fun h1 => LT.lt.lt_or_lt h1 _

theorem Fl.toUint_natCast (oor : Nat → Fl → Nat) (w n : Nat) (hn : n < 2 ^ w) :
    Fl.toUint oor w (Fl.fin n) = n := by
  have h1 : Fl.trunc (n : ℚ) = (n : Int) := by simp [Fl.trunc]
  have h2 : (n : Int) < 2 ^ w := by exact_mod_cast hn
  simp [Fl.toUint, h1, h2]

/-! ## Bit packing -/

theorem or_shift_decode (k n i : Nat) (hk : k < 2 ^ i) (hn : n < 2 ^ i) :
    (k ||| (n <<< i)) % 2 ^ i = k ∧ (k ||| (n <<< i)) / 2 ^ i % 2 ^ i = n := by
  have e : k ||| (n <<< i) = 2 ^ i * n + k := by
    rw [Nat.mul_add_lt_is_or hk, Nat.shiftLeft_eq, Nat.or_comm, Nat.mul_comm]
  rw [e]
  have hpos : 0 < 2 ^ i := Nat.pos_of_ne_zero (by positivity)
  constructor
  · rw [Nat.mul_add_mod, Nat.mod_eq_of_lt hk]
  · rw [Nat.mul_add_div hpos, Nat.div_eq_of_lt hk, Nat.add_zero,
      Nat.mod_eq_of_lt hn]

/-- The word packed from an index `k` and an exponent that converts to `n`,
both below `2 ^ (b / 2)`, holds `k` in its low half and `n` in the next. -/
theorem packWord_decode {F D : Type} (ops : FloatOps F D) (b : Nat) (k : Int)
    (t : F) (n : Nat) (hb : Supported b) (hk0 : 0 ≤ k)
    (hk : k < 2 ^ (b / 2)) (hn : n < 2 ^ (b / 2)) (ht : ops.toUint b t = n) :
    ∃ w, packWord ops b k t = .ok w ∧ ((w % 2 ^ (b / 2) : Nat) : Int) = k ∧
      w / 2 ^ (b / 2) % 2 ^ (b / 2) = n := by
  obtain ⟨k, rfl⟩ := Int.eq_ofNat_of_zero_le hk0
  have hk2 : k < 2 ^ (b / 2) := by exact_mod_cast hk
  rcases hb with hb | hb | hb
  · have hb2 : b = 16 := by exact_mod_cast hb
    subst hb2
    have h1 : ((k : Int) % 2 ^ 16).toNat = k := by
      norm_num at hk2 ⊢
      omega
    have h2 : (n % 2 ^ 16) <<< 8 % 2 ^ 16 = n <<< 8 := by
      norm_num at hn ⊢
      rw [Nat.shiftLeft_eq]
      omega
    obtain ⟨d1, d2⟩ := or_shift_decode k n 8 hk2 hn
    refine ⟨k ||| (n <<< 8), ?_, by exact_mod_cast d1, d2⟩
    simp only [packWord, ht, h1, h2]
    norm_num
  · have hb2 : b = 32 := by exact_mod_cast hb
    subst hb2
    have h1 : ((k : Int) % 2 ^ 32).toNat = k := by
      norm_num at hk2 ⊢
      omega
    have h2 : (n % 2 ^ 32) <<< 16 % 2 ^ 32 = n <<< 16 := by
      norm_num at hn ⊢
      rw [Nat.shiftLeft_eq]
      omega
    obtain ⟨d1, d2⟩ := or_shift_decode k n 16 hk2 hn
    refine ⟨k ||| (n <<< 16), ?_, by exact_mod_cast d1, d2⟩
    simp only [packWord, ht, h1, h2]
    norm_num
  · have hb2 : b = 64 := by exact_mod_cast hb
    subst hb2
    have h1 : ((k : Int) % 2 ^ 64).toNat = k := by
      norm_num at hk2 ⊢
      omega
    have h2 : (n % 2 ^ 64) <<< 32 % 2 ^ 64 = n <<< 32 := by
      norm_num at hn ⊢
      rw [Nat.shiftLeft_eq]
      omega
    obtain ⟨d1, d2⟩ := or_shift_decode k n 32 hk2 hn
    refine ⟨k ||| (n <<< 32), ?_, by exact_mod_cast d1, d2⟩
    simp only [packWord, ht, h1, h2]
    norm_num

/-! ## Facts about the example hashers -/

theorem sampleHasher_shaped : Shaped sampleHasher := by
  simp [Shaped, TableShape, sampleHasher]

theorem sampleHasher8_shaped : Shaped sampleHasher8 := by
  simp [Shaped, TableShape, sampleHasher8, sampleHasher]

theorem sampleInput_valid :
    ValidInput IEEE.go sampleHasher [Fl.fin 1, Fl.fin 2] [0, 2] := by
  simp [ValidInput, NoNegative, IEEE.go, IEEE.ops, Fl.lt, sampleHasher]

theorem emptyInput_valid : ValidInput IEEE.go sampleHasher8 [] [] := by
  simp [ValidInput, NoNegative]

theorem sampleHasher_cand0 :
    candidate IEEE.go sampleHasher [Fl.fin 1, Fl.fin 2] 0 0 0 =
      some (Fl.fin (976719 / 8388608), Fl.fin 0) := by decide!

theorem sampleHasher_cand1 :
    candidate IEEE.go sampleHasher [Fl.fin 1, Fl.fin 2] 0 1 2 =
      some (Fl.fin (-5 / 2), Fl.fin 1) := by decide!

theorem sampleHasher_notNaN (p : Nat) (j : Int) (a t : Fl)
    (hc : CandAt IEEE.go sampleHasher [Fl.fin 1, Fl.fin 2] 0 [0, 2] 0 p j a t) :
    a ≠ Fl.nan := by
  obtain ⟨h1, h2⟩ := hc
  rcases p with _ | _ | p
  · simp at h1
    subst h1
    rw [Nat.add_zero, sampleHasher_cand0] at h2
    cases h2
    simp
  · simp at h1
    subst h1
    rw [Nat.zero_add, sampleHasher_cand1] at h2
    cases h2
    simp
  · simp at h1

theorem sampleHasher_below :
    ∃ p j a t, CandAt IEEE.go sampleHasher [Fl.fin 1, Fl.fin 2] 0 [0, 2] 0 p j a t ∧
      IEEE.go.lt a IEEE.go.maxFloat32 = true :=
  ⟨1, 2, Fl.fin (-5 / 2), Fl.fin 1, ⟨by simp, sampleHasher_cand1⟩, by decide!⟩

/-! ## The claims -/

/-- C1: whenever `Hash` returns a slice, the slice has exactly `sampleSize`
elements; and `Hash` does return one for every hasher with tables of shape
`sampleSize × dim` and a supported `Bitness`, and every input without a
negative value whose indices lie in `[0, dim)`, whatever the number of pairs,
zero pairs included. -/
theorem Hash_length {F D : Type} (ops : FloatOps F D)
    (h : WeightedMinHasher F) (values : List F) (indices : List Int) :
    (∀ r, Hash ops h values indices = .ok r → (r.length : Int) = h.sampleSize) ∧
    (Shaped h → ValidInput ops h values indices → Supported h.Bitness →
      ∃ r, Hash ops h values indices = .ok r ∧
        (r.length : Int) = h.sampleSize) := by
  refine ⟨Hash_ok_length ops h values indices, ?_⟩
  intro hsh hin hb
  obtain ⟨r, hr⟩ := Hash_valid_ok ops h values indices hsh hin hb
  exact ⟨r, hr, Hash_ok_length ops h values indices r hr⟩

/-- C1 at `sampleHasher`, on the input `[1.0, 2.0]` at `[0, 2]`: `Hash`
returns 2 elements. -/
theorem Hash_length_witness :
    Shaped sampleHasher ∧
    ValidInput IEEE.go sampleHasher [Fl.fin 1, Fl.fin 2] [0, 2] ∧
    Supported sampleHasher.Bitness ∧
    ∃ r, Hash IEEE.go sampleHasher [Fl.fin 1, Fl.fin 2] [0, 2] = .ok r ∧
      (r.length : Int) = 2 :=
  ⟨sampleHasher_shaped, sampleInput_valid, Or.inr (Or.inr rfl),
    (Hash_length IEEE.go sampleHasher [Fl.fin 1, Fl.fin 2] [0, 2]).2
      sampleHasher_shaped sampleInput_valid (Or.inr (Or.inr rfl))⟩

/-- C2: when some value is negative, `Hash` fails with the negative-value
error, which carries the first negative value and its position, whatever the
hasher, its `Bitness` and the indices are. -/
theorem Hash_negative_value {F D : Type} (ops : FloatOps F D)
    (h : WeightedMinHasher F) (values : List F) (indices : List Int)
    (hneg : ∃ v ∈ values, ops.lt v ops.zero = true) :
    ∃ i v, values[i]? = some v ∧ ops.lt v ops.zero = true ∧
      (∀ q w, q < i → values[q]? = some w → ops.lt w ops.zero = false) ∧
      Hash ops h values indices = .error (.negativeValue v i) := by
  obtain ⟨i, v, hi, hv, hbefore, hres⟩ := checkValues_first ops values 0 hneg
  refine ⟨i, v, hi, hv, hbefore, ?_⟩
  simp [Hash, hres]

/-- C2 at the values `[1.0, -2.0, -3.0]`, with an index out of range and an
unsupported `Bitness`. -/
theorem Hash_negative_value_witness :
    (∃ v ∈ [Fl.fin 1, Fl.fin (-2), Fl.fin (-3)],
      IEEE.go.lt v IEEE.go.zero = true) ∧
    ∃ i v, [Fl.fin 1, Fl.fin (-2), Fl.fin (-3)][i]? = some v ∧
      IEEE.go.lt v IEEE.go.zero = true ∧
      (∀ q w, q < i → [Fl.fin 1, Fl.fin (-2), Fl.fin (-3)][q]? = some w →
        IEEE.go.lt w IEEE.go.zero = false) ∧
      Hash IEEE.go sampleHasher8 [Fl.fin 1, Fl.fin (-2), Fl.fin (-3)] [9] =
        .error (.negativeValue v i) :=
  have hneg : ∃ v ∈ [Fl.fin 1, Fl.fin (-2), Fl.fin (-3)],
      IEEE.go.lt v IEEE.go.zero = true :=
    ⟨Fl.fin (-2), by simp, by simp [IEEE.go, IEEE.ops, Fl.lt]⟩
  ⟨hneg, Hash_negative_value IEEE.go sampleHasher8 _ [9] hneg⟩

/-- C3: when no value is negative and some index is at least `dim`, `Hash`
fails with the index-out-of-range error, which carries the first such index
and its position in `indices`. -/
theorem Hash_index_out_of_range {F D : Type} (ops : FloatOps F D)
    (h : WeightedMinHasher F) (values : List F) (indices : List Int)
    (hv : NoNegative ops values) (hbig : ∃ j ∈ indices, j ≥ h.dim) :
    ∃ vi j, indices[vi]? = some j ∧ j ≥ h.dim ∧
      (∀ q k, q < vi → indices[q]? = some k → k < h.dim) ∧
      Hash ops h values indices = .error (.indexOutOfRange j vi) := by
  obtain ⟨vi, j, hvi, hj, hbefore, hres⟩ :=
    checkIndices_first (F := F) h.dim indices 0 hbig
  refine ⟨vi, j, hvi, hj, hbefore, ?_⟩
  simp [Hash, checkValues_ok ops values 0 hv, hres]

/-- C3 at `sampleHasher` (`dim = 4`), on the indices `[0, 4, 7]`. -/
theorem Hash_index_out_of_range_witness :
    NoNegative IEEE.go [Fl.fin 1, Fl.fin 2] ∧
    (∃ j ∈ [(0 : Int), 4, 7], j ≥ sampleHasher.dim) ∧
    ∃ vi j, [(0 : Int), 4, 7][vi]? = some j ∧ j ≥ sampleHasher.dim ∧
      (∀ q k, q < vi → [(0 : Int), 4, 7][q]? = some k → k < sampleHasher.dim) ∧
      Hash IEEE.go sampleHasher [Fl.fin 1, Fl.fin 2] [0, 4, 7] =
        .error (.indexOutOfRange j vi) :=
  have hbig : ∃ j ∈ [(0 : Int), 4, 7], j ≥ sampleHasher.dim :=
    ⟨4, by simp, by simp [sampleHasher]⟩
  ⟨sampleInput_valid.1, hbig,
    Hash_index_out_of_range IEEE.go sampleHasher _ _ sampleInput_valid.1 hbig⟩

/-- C4: on `sampleHasher` (`dim = 4`, 2 samples) the input `[1.0]` at index
`[-1]` passes both checks, and `Hash` ends in a run-time panic of the read
`betas[0][-1]`, not in the index-out-of-range error. -/
theorem Hash_negative_index_example :
    Hash IEEE.go sampleHasher [Fl.fin 1] [-1] = .error .runtimePanic ∧
    Hash IEEE.go sampleHasher [Fl.fin 1] [-1] ≠
      .error (.indexOutOfRange (-1) 0) :=
  have hp : Hash IEEE.go sampleHasher [Fl.fin 1] [-1] = .error .runtimePanic :=
    Hash_negative_index IEEE.go sampleHasher [Fl.fin 1] [-1]
      (by simp [NoNegative, IEEE.go, IEEE.ops, Fl.lt])
      (by simp [sampleHasher]) (by simp [sampleHasher]) ⟨-1, by simp, by decide⟩
  ⟨hp, by rw [hp]; simp⟩

/-- C5, amended: for a hasher with tables of shape `sampleSize × dim`, at
least one sample and a `Bitness` that is not 16, 32 or 64, `Hash` fails with
the unsupported-bitness error on every input that has no negative value, a
value for each index and every index in `[0, dim)`, the empty input
included. -/
theorem Hash_unsupported_bitness {F D : Type} (ops : FloatOps F D)
    (h : WeightedMinHasher F) (values : List F) (indices : List Int)
    (hsh : Shaped h) (hn : 0 < h.sampleSize) (hb : ¬ Supported h.Bitness)
    (hin : ValidInput ops h values indices) :
    Hash ops h values indices = .error (.unsupportedBitness h.Bitness) := by
  rw [Hash_eq_loop ops h values indices hin.1 (fun j hj => (hin.2.2 j hj).2)
    (by omega)]
  obtain ⟨n, hn2⟩ : ∃ n, h.sampleSize.toNat = n + 1 :=
    ⟨h.sampleSize.toNat - 1, by omega⟩
  rw [hn2]
  apply hashLoop_first_error
  obtain ⟨sel, hsel⟩ := scan_valid ops h values indices 0 hsh hin (by omega)
  simp only [hashSample, hsel]
  exact packWord_unsupported ops h.Bitness sel.k sel.minT hb

/-- C5 at `sampleHasher8` (`Bitness = 8`), on the empty input. -/
theorem Hash_unsupported_bitness_witness :
    Shaped sampleHasher8 ∧ 0 < sampleHasher8.sampleSize ∧
    ¬ Supported sampleHasher8.Bitness ∧
    ValidInput IEEE.go sampleHasher8 [] [] ∧
    Hash IEEE.go sampleHasher8 [] [] = .error (.unsupportedBitness 8) :=
  have hn : 0 < sampleHasher8.sampleSize := by simp [sampleHasher8, sampleHasher]
  have hb : ¬ Supported sampleHasher8.Bitness := by
    simp [Supported, sampleHasher8]
  ⟨sampleHasher8_shaped, hn, hb, emptyInput_valid,
    Hash_unsupported_bitness IEEE.go sampleHasher8 [] [] sampleHasher8_shaped hn
      hb emptyInput_valid⟩

/-- C5 as stated fails: on `sampleHasher8` (`Bitness = 8`, 2 samples) the
input `[1.0]` at index `[-1]` and the input of no value at index `[0]` pass
the checks of lines 66-75, and `Hash` ends in a run-time panic of the first
sample (the read `betas[0][-1]`, the read `values[0]`), not in the
unsupported-bitness error. -/
theorem Hash_unsupported_bitness_fails :
    0 < sampleHasher8.sampleSize ∧ ¬ Supported sampleHasher8.Bitness ∧
    checkValues IEEE.go [Fl.fin 1] 0 = .ok () ∧
    (checkIndices sampleHasher8.dim [-1] 0 : Except (HashError Fl) Unit) =
      .ok () ∧
    Hash IEEE.go sampleHasher8 [Fl.fin 1] [-1] = .error .runtimePanic ∧
    Hash IEEE.go sampleHasher8 [Fl.fin 1] [-1] ≠
      .error (.unsupportedBitness 8) ∧
    checkValues IEEE.go [] 0 = .ok () ∧
    (checkIndices sampleHasher8.dim [0] 0 : Except (HashError Fl) Unit) =
      .ok () ∧
    Hash IEEE.go sampleHasher8 [] [0] = .error .runtimePanic ∧
    Hash IEEE.go sampleHasher8 [] [0] ≠ .error (.unsupportedBitness 8) :=
  ⟨by simp [sampleHasher8, sampleHasher], by simp [Supported, sampleHasher8],
    by decide!, by decide!, by decide!, by decide!, by decide!, by decide!,
    by decide!, by decide!⟩

/-- C6, amended: for `Bitness` `b` in {16, 32, 64}, every index `k` with
`0 ≤ k < 2 ^ (b / 2)` and every exponent `t` that is a non-negative integer
below `2 ^ (b / 2)`, the word packed from `(k, t)` has `k` in its low `b / 2`
bits and `t` in the next `b / 2` bits. -/
theorem packWord_roundtrip (log : Fl → Fl) (oor : Nat → Fl → Nat) (b : Nat)
    (k : Int) (n : Nat) (hb : Supported b) (hk0 : 0 ≤ k)
    (hk : k < 2 ^ (b / 2)) (hn : n < 2 ^ (b / 2)) :
    ∃ w, packWord (IEEE.ops log oor) b k (Fl.fin n) = .ok w ∧
      ((w % 2 ^ (b / 2) : Nat) : Int) = k ∧
      w / 2 ^ (b / 2) % 2 ^ (b / 2) = n := by
  have hle : 2 ^ (b / 2) ≤ 2 ^ b :=
    Nat.pow_le_pow_right (by decide) (Nat.div_le_self b 2)
  exact packWord_decode (IEEE.ops log oor) b k (Fl.fin n) n hb hk0 hk hn
    (Fl.toUint_natCast oor b n (by omega))

/-- C6, amended, at `Bitness = 16`, `k = 200`, `t = 3`. -/
theorem packWord_roundtrip_witness :
    Supported ((16 : Nat) : Int) ∧ (0 : Int) ≤ 200 ∧
    (200 : Int) < 2 ^ (16 / 2) ∧ 3 < 2 ^ (16 / 2) ∧
    ∃ w, packWord IEEE.go (16 : Nat) 200 (Fl.fin (3 : Nat)) = .ok w ∧
      ((w % 2 ^ (16 / 2) : Nat) : Int) = 200 ∧
      w / 2 ^ (16 / 2) % 2 ^ (16 / 2) = 3 :=
  ⟨Or.inl rfl, by decide, by decide, by decide,
    packWord_roundtrip approxLn (fun _ _ => 0) 16 200 3 (Or.inl rfl)
      (by decide) (by decide) (by decide)⟩

/-- C6 as stated fails for `Bitness = 16`, `dim = 257`, `k = 256`, `t = 0`:
on `wideHasher` the input `[2.0]` at index `[256]` selects `k = 256`, `t = 0`,
the word packed is 256, its low 8 bits are 0 and its next 8 bits are 1. -/
theorem packWord_roundtrip_fails :
    wideHasher.Bitness = 16 ∧ (256 : Int) < wideHasher.dim ∧
    scan IEEE.go wideHasher [Fl.fin 2] 0 [256] 0 (Sel.init IEEE.go) =
      .ok ⟨Fl.fin (-1), 256, Fl.fin 0⟩ ∧
    packWord IEEE.go 16 256 (Fl.fin 0) = .ok 256 ∧
    Hash IEEE.go wideHasher [Fl.fin 2] [256] = .ok [256] ∧
    ((256 % 2 ^ 8 : Nat) : Int) ≠ 256 ∧ 256 / 2 ^ 8 % 2 ^ 8 ≠ 0 :=
  ⟨rfl, by decide, by decide!, by decide!, by decide!, by decide, by decide⟩

/-- C7: a pair replaces the selection only when its `lnA` is strictly below
the running minimum; hence, when the comparison is a strict weak order on the
values at hand (no NaN among them) and some pair is below the initial
minimum, the `(k, t)` packed for sample `s` are the index and the `t` of a pair
`p` whose `lnA` no pair is below, every pair before `p` having a strictly
larger `lnA`. -/
theorem scan_first_minimum {F D : Type} (ops : FloatOps F D)
    (h : WeightedMinHasher F) (values : List F) (indices : List Int) (s : Nat)
    (S : F → Prop) (hS : StrictWeakOn ops.lt S) (hmax : S ops.maxFloat32)
    (hall : ∀ p j a t, CandAt ops h values s indices 0 p j a t → S a)
    (hsh : Shaped h) (hin : ValidInput ops h values indices)
    (hb : Supported h.Bitness) (hs : (s : Int) < h.sampleSize)
    (hsome : ∃ p j a t, CandAt ops h values s indices 0 p j a t ∧
      ops.lt a ops.maxFloat32 = true) :
    (∀ acc j a t, ops.lt a acc.minLnA = false → update ops acc j a t = acc) ∧
    ∃ p j a t, CandAt ops h values s indices 0 p j a t ∧
      (∀ q j1 a1 t1, CandAt ops h values s indices 0 q j1 a1 t1 →
        ops.lt a1 a = false) ∧
      (∀ q j1 a1 t1, q < p → CandAt ops h values s indices 0 q j1 a1 t1 →
        ops.lt a a1 = true) ∧
      ∃ r w, Hash ops h values indices = .ok r ∧ r[s]? = some w ∧
        packWord ops h.Bitness j t = .ok w := by
  refine ⟨fun acc j a t hlt => by simp [update, hlt], ?_⟩
  obtain ⟨r, hr⟩ := Hash_valid_ok ops h values indices hsh hin hb
  obtain ⟨w, sel, hw, hscan, hpack⟩ := Hash_get ops h values indices r hr s hs
  rcases scan_min ops h values s S hS indices 0 (Sel.init ops) sel hmax hall
      hscan with ⟨-, hno⟩ | ⟨p, j, a, t, hp, he, -, hmin, hear⟩
  · obtain ⟨p, j, a, t, hp, hlt⟩ := hsome
    have := hno p j a t hp
    rw [show (Sel.init ops).minLnA = ops.maxFloat32 from rfl, hlt] at this
    cases this
  · subst he
    exact ⟨p, j, a, t, hp, hmin, hear, r, w, hr, hw, hpack⟩

/-- C7 at `sampleHasher`, sample 0, on the input `[1.0, 2.0]` at `[0, 2]`. -/
theorem scan_first_minimum_witness :
    StrictWeakOn IEEE.go.lt (fun x => x ≠ Fl.nan) ∧
    IEEE.go.maxFloat32 ≠ Fl.nan ∧ Shaped sampleHasher ∧
    ValidInput IEEE.go sampleHasher [Fl.fin 1, Fl.fin 2] [0, 2] ∧
    Supported sampleHasher.Bitness ∧ ((0 : Nat) : Int) < sampleHasher.sampleSize ∧
    (∃ p j a t, CandAt IEEE.go sampleHasher [Fl.fin 1, Fl.fin 2] 0 [0, 2] 0 p j a t ∧
      IEEE.go.lt a IEEE.go.maxFloat32 = true) ∧
    ∃ p j a t, CandAt IEEE.go sampleHasher [Fl.fin 1, Fl.fin 2] 0 [0, 2] 0 p j a t ∧
      (∀ q j1 a1 t1,
        CandAt IEEE.go sampleHasher [Fl.fin 1, Fl.fin 2] 0 [0, 2] 0 q j1 a1 t1 →
        IEEE.go.lt a1 a = false) ∧
      (∀ q j1 a1 t1, q < p →
        CandAt IEEE.go sampleHasher [Fl.fin 1, Fl.fin 2] 0 [0, 2] 0 q j1 a1 t1 →
        IEEE.go.lt a a1 = true) ∧
      ∃ r w, Hash IEEE.go sampleHasher [Fl.fin 1, Fl.fin 2] [0, 2] = .ok r ∧
        r[0]? = some w ∧ packWord IEEE.go sampleHasher.Bitness j t = .ok w :=
  have hmax : IEEE.go.maxFloat32 ≠ Fl.nan := by simp [IEEE.go, IEEE.ops]
  have hs : ((0 : Nat) : Int) < sampleHasher.sampleSize := by simp [sampleHasher]
  ⟨Fl.lt_strictWeak, hmax, sampleHasher_shaped, sampleInput_valid,
    Or.inr (Or.inr rfl), hs, sampleHasher_below,
    (scan_first_minimum IEEE.go sampleHasher [Fl.fin 1, Fl.fin 2] [0, 2] 0
      (fun x => x ≠ Fl.nan) Fl.lt_strictWeak hmax sampleHasher_notNaN
      sampleHasher_shaped sampleInput_valid (Or.inr (Or.inr rfl)) hs
      sampleHasher_below).2⟩

/-- C8, amended: the running minimum of every sample starts at
`float32(math.MaxFloat32)`; on a valid input, when some pair has its `lnA`
strictly below that value the index `k` packed for the sample is one of the
indices of the input, and when no pair has, the word packs the defaults
`k = 0`, `t = 0`. -/
theorem scan_selects_below_max {F D : Type} (ops : FloatOps F D)
    (h : WeightedMinHasher F) (values : List F) (indices : List Int) (s : Nat)
    (hsh : Shaped h) (hin : ValidInput ops h values indices)
    (hb : Supported h.Bitness) (hs : (s : Int) < h.sampleSize) :
    (Sel.init ops).minLnA = ops.maxFloat32 ∧
    ((∃ p j a t, CandAt ops h values s indices 0 p j a t ∧
        ops.lt a ops.maxFloat32 = true) →
      ∃ p j a t, CandAt ops h values s indices 0 p j a t ∧ j ∈ indices ∧
        ∃ r w, Hash ops h values indices = .ok r ∧ r[s]? = some w ∧
          packWord ops h.Bitness j t = .ok w) ∧
    ((∀ p j a t, CandAt ops h values s indices 0 p j a t →
        ops.lt a ops.maxFloat32 = false) →
      ∃ r w, Hash ops h values indices = .ok r ∧ r[s]? = some w ∧
        packWord ops h.Bitness 0 ops.zero = .ok w) := by
  obtain ⟨r, hr⟩ := Hash_valid_ok ops h values indices hsh hin hb
  obtain ⟨w, sel, hw, hscan, hpack⟩ := Hash_get ops h values indices r hr s hs
  have hcases := scan_sel ops h values s indices 0 (Sel.init ops) sel hscan
  refine ⟨rfl, ?_, ?_⟩
  · rintro ⟨p, j, a, t, hp, hlt⟩
    rcases hcases with ⟨-, hno⟩ | ⟨⟨p2, j2, a2, t2, hp2, he⟩, -⟩
    · have := hno p j a t hp
      rw [show (Sel.init ops).minLnA = ops.maxFloat32 from rfl, hlt] at this
      cases this
    · subst he
      exact ⟨p2, j2, a2, t2, hp2, List.getElem?_mem hp2.1, r, w, hr, hw, hpack⟩
  · intro hnone
    rcases hcases with ⟨he, -⟩ | ⟨-, q, j1, a1, t1, hq, hlt⟩
    · subst he
      exact ⟨r, w, hr, hw, hpack⟩
    · have := hnone q j1 a1 t1 hq
      rw [show (Sel.init ops).minLnA = ops.maxFloat32 from rfl, this] at hlt
      cases hlt

/-- C8, amended, at `sampleHasher`, sample 0, on `[1.0, 2.0]` at `[0, 2]`. -/
theorem scan_selects_below_max_witness :
    Shaped sampleHasher ∧
    ValidInput IEEE.go sampleHasher [Fl.fin 1, Fl.fin 2] [0, 2] ∧
    Supported sampleHasher.Bitness ∧ ((0 : Nat) : Int) < sampleHasher.sampleSize ∧
    ∃ p j a t, CandAt IEEE.go sampleHasher [Fl.fin 1, Fl.fin 2] 0 [0, 2] 0 p j a t ∧
      j ∈ [(0 : Int), 2] ∧
      ∃ r w, Hash IEEE.go sampleHasher [Fl.fin 1, Fl.fin 2] [0, 2] = .ok r ∧
        r[0]? = some w ∧ packWord IEEE.go sampleHasher.Bitness j t = .ok w :=
  have hs : ((0 : Nat) : Int) < sampleHasher.sampleSize := by simp [sampleHasher]
  ⟨sampleHasher_shaped, sampleInput_valid, Or.inr (Or.inr rfl), hs,
    (scan_selects_below_max IEEE.go sampleHasher [Fl.fin 1, Fl.fin 2] [0, 2] 0
      sampleHasher_shaped sampleInput_valid (Or.inr (Or.inr rfl)) hs).2.1
      sampleHasher_below⟩

/-- C8 as stated fails on `zeroRHasher`, whose `rs[0][1]` is zero: the running
minimum starts at the finite `MaxFloat32`, the only pair of the valid input
`[1.0]` at index `[1]` gets `lnA = NaN`, which is not below it, no pair is
selected, and the word packs the default `k = 0`, which is not an index of the
input. -/
theorem scan_selects_nothing :
    Shaped zeroRHasher ∧ ValidInput IEEE.go zeroRHasher [Fl.fin 1] [1] ∧
    (Sel.init IEEE.go).minLnA = Fl.fin Fl.maxFloat32 ∧
    candidate IEEE.go zeroRHasher [Fl.fin 1] 0 0 1 = some (Fl.nan, Fl.nan) ∧
    scan IEEE.go zeroRHasher [Fl.fin 1] 0 [1] 0 (Sel.init IEEE.go) =
      .ok ⟨Fl.fin Fl.maxFloat32, 0, Fl.fin 0⟩ ∧
    Hash IEEE.go zeroRHasher [Fl.fin 1] [1] = .ok [0] ∧
    packWord IEEE.go 64 0 (Fl.fin 0) = .ok 0 ∧ (0 : Int) ∉ [(1 : Int)] :=
  ⟨by simp [Shaped, TableShape, zeroRHasher],
    by simp [ValidInput, NoNegative, IEEE.go, IEEE.ops, Fl.lt, zeroRHasher],
    rfl, by decide!, by decide!, by decide!, by decide!, by decide⟩

/-- C10: for `dim ≥ 0` and `sampleSize ≥ 0` and every seed,
`NewWeightedMinHasher` returns a hasher that stores `dim` and `sampleSize` as
given and whose tables `rs`, `lnCs` and `betas` each have `sampleSize` rows of
length `dim`. -/
theorem NewWeightedMinHasher_shape {F D G : Type} (ops : FloatOps F D)
    (R : RandOps G D) (dim sampleSize seed : Int) (hd : 0 ≤ dim)
    (hs : 0 ≤ sampleSize) :
    ∃ h, NewWeightedMinHasher ops R dim sampleSize seed = some h ∧
      h.dim = dim ∧ h.sampleSize = sampleSize ∧
      TableShape h.rs sampleSize dim ∧ TableShape h.lnCs sampleSize dim ∧
      TableShape h.betas sampleSize dim :=
  ⟨_, NewWeightedMinHasher_eq ops R dim sampleSize seed hd hs, rfl, rfl,
    fillTable_tableShape _ dim sampleSize hd hs _,
    fillTable_tableShape _ dim sampleSize hd hs _,
    fillTable_tableShape _ dim sampleSize hd hs _⟩

/-- C10 at `dim = 4`, `sampleSize = 2`, `seed = 1`. -/
theorem NewWeightedMinHasher_shape_witness :
    (0 : Int) ≤ 4 ∧ (0 : Int) ≤ 2 ∧
    ∃ h, NewWeightedMinHasher IEEE.go counterRand 4 2 1 = some h ∧
      h.dim = 4 ∧ h.sampleSize = 2 ∧
      TableShape h.rs 2 4 ∧ TableShape h.lnCs 2 4 ∧ TableShape h.betas 2 4 :=
  ⟨by decide, by decide,
    NewWeightedMinHasher_shape IEEE.go counterRand 4 2 1 (by decide) (by decide)⟩

/-! ## Further lemmas on words and samples -/

theorem or_shift_mod (a T i : Nat) : (a ||| (T <<< i)) % 2 ^ i = a % 2 ^ i := by
  apply Nat.eq_of_testBit_eq
  intro j
  simp only [Nat.testBit_mod_two_pow, Nat.testBit_or, Nat.testBit_shiftLeft]
  by_cases hj : j < i
  · have : ¬ j ≥ i := by omega
    simp [hj, this]
  · simp [hj]

theorem or_shift_div (a T i : Nat) :
    (a ||| (T <<< i)) / 2 ^ i = a / 2 ^ i ||| T := by
  apply Nat.eq_of_testBit_eq
  intro j
  simp [← Nat.shiftRight_eq_div_pow, Nat.testBit_shiftRight, Nat.testBit_or,
    Nat.testBit_shiftLeft]

theorem shift_mod_half (T i : Nat) :
    (T % 2 ^ (i + i)) <<< i % 2 ^ (i + i) = (T % 2 ^ i) <<< i := by
  apply Nat.eq_of_testBit_eq
  intro j
  simp only [Nat.testBit_mod_two_pow, Nat.testBit_shiftLeft]
  by_cases h1 : j < i + i <;> by_cases h2 : j ≥ i <;> simp [h1, h2]
  · have e1 : j - i < i + i := by omega
    have e2 : j - i < i := by omega
    simp [e1, e2]
  · intro h3
    omega

/-- The 64-bit word: its low 32 bits are those of `k`, and for an index below
`2 ^ 32` its next 32 bits are the low 32 bits of `uint64(t)`. -/
theorem pack64_layout (k : Int) (T : Nat) :
    (((k % 2 ^ 64).toNat ||| ((T % 2 ^ 64) <<< 32) % 2 ^ 64) % 2 ^ 32 =
      (k % 2 ^ 32).toNat) ∧
    (0 ≤ k → k < 2 ^ 32 →
      ((k % 2 ^ 64).toNat ||| ((T % 2 ^ 64) <<< 32) % 2 ^ 64) / 2 ^ 32 =
        T % 2 ^ 32) := by
  have e := shift_mod_half T 32
  rw [show 32 + 32 = 64 from rfl] at e
  rw [e]
  refine ⟨?_, ?_⟩
  · rw [or_shift_mod]
    norm_num
    omega
  · intro h0 h1
    rw [or_shift_div]
    have : (k % 2 ^ 64).toNat / 2 ^ 32 = 0 := by
      norm_num at h1 ⊢
      omega
    rw [this, Nat.zero_or]

theorem packWord_lt {F D : Type} (ops : FloatOps F D) (b k : Int) (t : F)
    (w : Nat) (hw : packWord ops b k t = .ok w) :
    Supported b ∧ w < 2 ^ b.toNat := by
  unfold packWord at hw
  by_cases h64 : b = 64
  · subst h64
    simp only [if_true, Except.ok.injEq] at hw
    refine ⟨Or.inr (Or.inr rfl), ?_⟩
    rw [← hw]
    apply Nat.or_lt_two_pow
    · have : (0 : Int) < 2 ^ 64 := by norm_num
      have h1 := Int.emod_lt_of_pos k this
      have h2 := Int.emod_nonneg k (ne_of_gt this)
      have e : ((64 : Int).toNat) = 64 := rfl
      rw [e]
      zify
      rw [Int.toNat_of_nonneg h2]
      exact_mod_cast h1
    · exact Nat.mod_lt _ (by positivity)
  · by_cases h32 : b = 32
    · subst h32
      simp only [h64, if_false, if_true, Except.ok.injEq] at hw
      refine ⟨Or.inr (Or.inl rfl), ?_⟩
      rw [← hw]
      apply Nat.or_lt_two_pow
      · have : (0 : Int) < 2 ^ 32 := by norm_num
        have h1 := Int.emod_lt_of_pos k this
        have h2 := Int.emod_nonneg k (ne_of_gt this)
        have e : ((32 : Int).toNat) = 32 := rfl
        rw [e]
        zify
        rw [Int.toNat_of_nonneg h2]
        exact_mod_cast h1
      · exact Nat.mod_lt _ (by positivity)
    · by_cases h16 : b = 16
      · subst h16
        simp only [h64, h32, if_false, if_true, Except.ok.injEq] at hw
        refine ⟨Or.inl rfl, ?_⟩
        rw [← hw]
        apply Nat.or_lt_two_pow
        · have : (0 : Int) < 2 ^ 16 := by norm_num
          have h1 := Int.emod_lt_of_pos k this
          have h2 := Int.emod_nonneg k (ne_of_gt this)
          have e : ((16 : Int).toNat) = 16 := rfl
          rw [e]
          zify
          rw [Int.toNat_of_nonneg h2]
          exact_mod_cast h1
        · exact Nat.mod_lt _ (by positivity)
      · simp [h64, h32, h16] at hw

theorem Hash_mem {F D : Type} (ops : FloatOps F D) (h : WeightedMinHasher F)
    (values : List F) (indices : List Int) (r : List Nat)
    (hr : Hash ops h values indices = .ok r) (s : Nat) (w : Nat)
    (hw : r[s]? = some w) :
    (s : Int) < h.sampleSize ∧
    ∃ sel, scan ops h values s indices 0 (Sel.init ops) = .ok sel ∧
      packWord ops h.Bitness sel.k sel.minT = .ok w := by
  have hlen := Hash_ok_length ops h values indices r hr
  obtain ⟨hs, -⟩ := List.getElem?_eq_some.mp hw
  have hs2 : (s : Int) < h.sampleSize := by omega
  obtain ⟨w2, sel, hw2, hscan, hpack⟩ := Hash_get ops h values indices r hr s hs2
  rw [hw] at hw2
  cases hw2
  exact ⟨hs2, sel, hscan, hpack⟩

theorem candidate_congr {F D : Type} (ops : FloatOps F D)
    (h1 h2 : WeightedMinHasher F) (values : List F) (s vi : Nat) (j : Int)
    (hr : h1.rs[s]? = h2.rs[s]?) (hc : h1.lnCs[s]? = h2.lnCs[s]?)
    (hb : h1.betas[s]? = h2.betas[s]?) :
    candidate ops h1 values s vi j = candidate ops h2 values s vi j := by
  simp only [candidate, cell, hr, hc, hb]

theorem scan_congr {F D : Type} (ops : FloatOps F D)
    (h1 h2 : WeightedMinHasher F) (values : List F) (s : Nat) (js : List Int)
    (vi : Nat) (acc : Sel F)
    (hr : h1.rs[s]? = h2.rs[s]?) (hc : h1.lnCs[s]? = h2.lnCs[s]?)
    (hb : h1.betas[s]? = h2.betas[s]?) :
    scan ops h1 values s js vi acc = scan ops h2 values s js vi acc := by
  induction js generalizing vi acc with
  | nil => rfl
  | cons j js ih =>
    simp only [scan, candidate_congr ops h1 h2 values s vi j hr hc hb]
    cases candidate ops h2 values s vi j with
    | none => rfl
    | some at0 => exact ih (vi + 1) _

theorem hashLoop_empty {F D : Type} (ops : FloatOps F D)
    (h : WeightedMinHasher F) (n s : Nat)
    (hp : packWord ops h.Bitness 0 ops.zero = .ok 0) :
    hashLoop ops h [] [] n s = .ok (List.replicate n 0) := by
  induction n generalizing s with
  | zero => rfl
  | succ n ih =>
    have hs : hashSample ops h [] [] s = .ok 0 := by
      simp [hashSample, scan, Sel.init, hp]
    simp [hashLoop, hs, ih (s + 1), List.replicate_succ]

theorem packWord_zero {F D : Type} (ops : FloatOps F D) (b : Int)
    (hb : Supported b) (hz : ∀ w, ops.toUint w ops.zero = 0) :
    packWord ops b 0 ops.zero = .ok 0 := by
  rcases hb with rfl | rfl | rfl <;> simp [packWord, hz]

theorem Fl.toUint_zero (oor : Nat → Fl → Nat) (w : Nat) :
    Fl.toUint oor w (Fl.fin 0) = 0 := by
  have := Fl.toUint_natCast oor w 0 (by positivity)
  simpa using this

/-! ## The claims, continued -/

/-- C11: every hasher returned by `NewWeightedMinHasher` has `Bitness = 64`,
so every word `Hash` returns on it is the 64-bit packing
`uint64(k) | uint64(t) << 32` of the selection of its sample: its low 32 bits
are those of `k`, and for `k < 2 ^ 32` its next 32 bits are the low 32 bits of
`uint64(t)`. -/
theorem NewWeightedMinHasher_bitness {F D G : Type} (ops : FloatOps F D)
    (R : RandOps G D) (dim sampleSize seed : Int) (h : WeightedMinHasher F)
    (e : NewWeightedMinHasher ops R dim sampleSize seed = some h) :
    h.Bitness = 64 ∧
    ∀ values indices r s w, Hash ops h values indices = .ok r →
      r[s]? = some w →
      ∃ sel, scan ops h values s indices 0 (Sel.init ops) = .ok sel ∧
        w = (sel.k % 2 ^ 64).toNat |||
          ((ops.toUint 64 sel.minT % 2 ^ 64) <<< 32) % 2 ^ 64 ∧
        w % 2 ^ 32 = (sel.k % 2 ^ 32).toNat ∧
        (0 ≤ sel.k → sel.k < 2 ^ 32 →
          w / 2 ^ 32 = ops.toUint 64 sel.minT % 2 ^ 32) := by
  have hb : h.Bitness = 64 := by
    unfold NewWeightedMinHasher at e
    split_ifs at e
    cases e
    rfl
  refine ⟨hb, ?_⟩
  intro values indices r s w hr hw
  obtain ⟨-, sel, hscan, hpack⟩ := Hash_mem ops h values indices r hr s w hw
  rw [hb] at hpack
  simp only [packWord, if_true, Except.ok.injEq] at hpack
  obtain ⟨l1, l2⟩ := pack64_layout sel.k (ops.toUint 64 sel.minT)
  refine ⟨sel, hscan, hpack.symm, ?_, ?_⟩
  · rw [← hpack]
    exact l1
  · rw [← hpack]
    exact l2

/-- C11 at `dim = 4`, `sampleSize = 2`, `seed = 1`: the hasher has
`Bitness = 64` and the word of sample 0 on `[1.0, 2.0]` at `[0, 2]` is
`2 + 1 * 2 ^ 32`. -/
theorem NewWeightedMinHasher_bitness_witness :
    NewWeightedMinHasher IEEE.go counterRand 4 2 1 = some sampleHasher ∧
    sampleHasher.Bitness = 64 ∧
    Hash IEEE.go sampleHasher [Fl.fin 1, Fl.fin 2] [0, 2] =
      .ok [4294967298, 4294967298] ∧
    ∃ sel, scan IEEE.go sampleHasher [Fl.fin 1, Fl.fin 2] 0 [0, 2] 0
        (Sel.init IEEE.go) = .ok sel ∧
      4294967298 = (sel.k % 2 ^ 64).toNat |||
        ((IEEE.go.toUint 64 sel.minT % 2 ^ 64) <<< 32) % 2 ^ 64 ∧
      4294967298 % 2 ^ 32 = (sel.k % 2 ^ 32).toNat ∧
      (0 ≤ sel.k → sel.k < 2 ^ 32 →
        4294967298 / 2 ^ 32 = IEEE.go.toUint 64 sel.minT % 2 ^ 32) :=
  have e : NewWeightedMinHasher IEEE.go counterRand 4 2 1 = some sampleHasher := by
    decide!
  have hr : Hash IEEE.go sampleHasher [Fl.fin 1, Fl.fin 2] [0, 2] =
      .ok [4294967298, 4294967298] := by decide!
  ⟨e, rfl, hr,
    (NewWeightedMinHasher_bitness IEEE.go counterRand 4 2 1 sampleHasher e).2
      [Fl.fin 1, Fl.fin 2] [0, 2] _ 0 4294967298 hr rfl⟩

/-- C12: for every hasher with a supported `Bitness` (and a `sampleSize` that
is not negative), `Hash` on empty values and empty indices returns
`sampleSize` words that are all 0, the packing of the defaults `k = 0`,
`t = 0`. -/
theorem Hash_empty_input (log : Fl → Fl) (oor : Nat → Fl → Nat)
    (h : WeightedMinHasher Fl) (hb : Supported h.Bitness)
    (hn : 0 ≤ h.sampleSize) :
    Hash (IEEE.ops log oor) h [] [] =
      .ok (List.replicate h.sampleSize.toNat 0) := by
  have hv : NoNegative (IEEE.ops log oor) [] := by
    intro v hv
    simp at hv
  rw [Hash_eq_loop (IEEE.ops log oor) h [] [] hv (by simp) hn]
  exact hashLoop_empty (IEEE.ops log oor) h _ 0
    (packWord_zero (IEEE.ops log oor) h.Bitness hb
      (fun w => Fl.toUint_zero oor w))

/-- C12 at `sampleHasher`: two words, both 0. -/
theorem Hash_empty_input_witness :
    Supported sampleHasher.Bitness ∧ 0 ≤ sampleHasher.sampleSize ∧
    Hash IEEE.go sampleHasher [] [] = .ok [0, 0] :=
  ⟨Or.inr (Or.inr rfl), by simp [sampleHasher],
    Hash_empty_input approxLn (fun _ _ => 0) sampleHasher (Or.inr (Or.inr rfl))
      (by simp [sampleHasher])⟩

/-- C13: two hashers with the same `sampleSize` and `Bitness` whose tables
agree on row `s` compute the same outcome for sample `s` on every input, and
when `Hash` returns on both, element `s` of the two results is the same,
whatever the other rows hold (and whatever `dim` is, which only the
validation reads). -/
theorem Hash_sample_independent {F D : Type} (ops : FloatOps F D)
    (h1 h2 : WeightedMinHasher F) (values : List F) (indices : List Int)
    (s : Nat) (hn : h1.sampleSize = h2.sampleSize)
    (hbit : h1.Bitness = h2.Bitness) (hr : h1.rs[s]? = h2.rs[s]?)
    (hc : h1.lnCs[s]? = h2.lnCs[s]?) (hb : h1.betas[s]? = h2.betas[s]?) :
    hashSample ops h1 values indices s = hashSample ops h2 values indices s ∧
    ∀ r1 r2, Hash ops h1 values indices = .ok r1 →
      Hash ops h2 values indices = .ok r2 → r1[s]? = r2[s]? := by
  have hsample : hashSample ops h1 values indices s =
      hashSample ops h2 values indices s := by
    simp only [hashSample, scan_congr ops h1 h2 values s indices 0 _ hr hc hb,
      hbit]
  refine ⟨hsample, ?_⟩
  intro r1 r2 e1 e2
  have l1 := Hash_ok_length ops h1 values indices r1 e1
  have l2 := Hash_ok_length ops h2 values indices r2 e2
  by_cases hs : (s : Int) < h1.sampleSize
  · obtain ⟨w1, sel1, hw1, hs1, hp1⟩ := Hash_get ops h1 values indices r1 e1 s hs
    obtain ⟨w2, sel2, hw2, hs2, hp2⟩ :=
      Hash_get ops h2 values indices r2 e2 s (hn ▸ hs)
    have e : (Except.ok w1 : Except (HashError F) Nat) = .ok w2 := by
      have a1 : hashSample ops h1 values indices s = .ok w1 := by
        simp only [hashSample, hs1, hp1]
      have a2 : hashSample ops h2 values indices s = .ok w2 := by
        simp only [hashSample, hs2, hp2]
      rw [← a1, ← a2, hsample]
    cases e
    rw [hw1, hw2]
  · have n1 : r1[s]? = none := List.getElem?_eq_none (by omega)
    have n2 : r2[s]? = none := List.getElem?_eq_none (by omega)
    rw [n1, n2]

/-- C13 at `sampleHasher` and `sampleHasherRow1`, which differ in row 1 only,
for sample 0. -/
theorem Hash_sample_independent_witness :
    sampleHasher.rs[0]? = sampleHasherRow1.rs[0]? ∧
    sampleHasher.rs[1]? ≠ sampleHasherRow1.rs[1]? ∧
    (hashSample IEEE.go sampleHasher [Fl.fin 1, Fl.fin 2] [0, 2] 0 =
      hashSample IEEE.go sampleHasherRow1 [Fl.fin 1, Fl.fin 2] [0, 2] 0 ∧
    ∀ r1 r2, Hash IEEE.go sampleHasher [Fl.fin 1, Fl.fin 2] [0, 2] = .ok r1 →
      Hash IEEE.go sampleHasherRow1 [Fl.fin 1, Fl.fin 2] [0, 2] = .ok r2 →
      r1[0]? = r2[0]?) :=
  ⟨rfl, by decide!,
    (Hash_sample_independent IEEE.go sampleHasher sampleHasherRow1
      [Fl.fin 1, Fl.fin 2] [0, 2] 0 rfl rfl rfl rfl rfl)⟩

/-- C17: for a hasher whose tables have shape `sampleSize × dim` and whose
`Bitness` is 16, 32 or 64, and an input with as many values as indices, no
negative value and every index in `[0, dim)`, `Hash` returns a sketch: no
`log.Fatalf` and no panic; every read `values[vi]`, `betas[s][j]`, `rs[s][j]`,
`lnCs[s][j]` of the scan and every write `hashvalues[s]` is in bounds. -/
theorem Hash_no_failure {F D : Type} (ops : FloatOps F D)
    (h : WeightedMinHasher F) (values : List F) (indices : List Int)
    (hsh : Shaped h) (hb : Supported h.Bitness)
    (hlen : values.length = indices.length) (hv : NoNegative ops values)
    (hj : ∀ j ∈ indices, 0 ≤ j ∧ j < h.dim) :
    ∃ r, Hash ops h values indices = .ok r ∧ (r.length : Int) = h.sampleSize ∧
      ∀ (s vi : Nat) (j : Int), (s : Int) < h.sampleSize →
        indices[vi]? = some j →
        (∃ v, values[vi]? = some v) ∧ (∃ b, cell h.betas s j = some b) ∧
        (∃ x, cell h.rs s j = some x) ∧ (∃ c, cell h.lnCs s j = some c) ∧
        ∃ w, r[s]? = some w := by
  have hin : ValidInput ops h values indices := ⟨hv, by omega, hj⟩
  obtain ⟨r, hr⟩ := Hash_valid_ok ops h values indices hsh hin hb
  have hl := Hash_ok_length ops h values indices r hr
  refine ⟨r, hr, hl, ?_⟩
  intro s vi j hs hvi
  obtain ⟨hvi2, -⟩ := List.getElem?_eq_some.mp hvi
  obtain ⟨j0, j1⟩ := hj j (List.getElem?_mem hvi)
  have hs2 : s < r.length := by omega
  exact ⟨⟨values[vi], List.getElem?_eq_getElem (by omega)⟩,
    cell_some h.betas _ _ hsh.2.2 s hs j j0 j1,
    cell_some h.rs _ _ hsh.1 s hs j j0 j1,
    cell_some h.lnCs _ _ hsh.2.1 s hs j j0 j1,
    ⟨r[s], List.getElem?_eq_getElem hs2⟩⟩

/-- C17 at `sampleHasher`, on the input `[1.0, 2.0]` at `[0, 2]`. -/
theorem Hash_no_failure_witness :
    Shaped sampleHasher ∧ Supported sampleHasher.Bitness ∧
    [Fl.fin 1, Fl.fin 2].length = [(0 : Int), 2].length ∧
    NoNegative IEEE.go [Fl.fin 1, Fl.fin 2] ∧
    (∀ j ∈ [(0 : Int), 2], 0 ≤ j ∧ j < sampleHasher.dim) ∧
    ∃ r, Hash IEEE.go sampleHasher [Fl.fin 1, Fl.fin 2] [0, 2] = .ok r ∧
      (r.length : Int) = sampleHasher.sampleSize ∧
      ∀ (s vi : Nat) (j : Int), (s : Int) < sampleHasher.sampleSize →
        [(0 : Int), 2][vi]? = some j →
        (∃ v, [Fl.fin 1, Fl.fin 2][vi]? = some v) ∧
        (∃ b, cell sampleHasher.betas s j = some b) ∧
        (∃ x, cell sampleHasher.rs s j = some x) ∧
        (∃ c, cell sampleHasher.lnCs s j = some c) ∧ ∃ w, r[s]? = some w :=
  ⟨sampleHasher_shaped, Or.inr (Or.inr rfl), rfl, sampleInput_valid.1,
    sampleInput_valid.2.2,
    Hash_no_failure IEEE.go sampleHasher [Fl.fin 1, Fl.fin 2] [0, 2]
      sampleHasher_shaped (Or.inr (Or.inr rfl)) rfl sampleInput_valid.1
      sampleInput_valid.2.2⟩

/-- C20: every element of a result of `Hash` is below `2 ^ Bitness`, and
`Bitness` is then 16, 32 or 64: the packing is computed in an unsigned integer
of that width, whatever `k` and `t` were selected. -/
theorem Hash_word_width {F D : Type} (ops : FloatOps F D)
    (h : WeightedMinHasher F) (values : List F) (indices : List Int)
    (r : List Nat) (w : Nat) (hr : Hash ops h values indices = .ok r)
    (hw : w ∈ r) : Supported h.Bitness ∧ w < 2 ^ h.Bitness.toNat := by
  obtain ⟨s, hs⟩ := List.getElem?_of_mem hw
  obtain ⟨-, sel, -, hpack⟩ := Hash_mem ops h values indices r hr s w hs
  exact packWord_lt ops h.Bitness sel.k sel.minT w hpack

/-- C20 at `wideHasher` (`Bitness = 16`), on the input `[2.0]` at index
`[256]`: the word 256 is below `2 ^ 16`. -/
theorem Hash_word_width_witness :
    Hash IEEE.go wideHasher [Fl.fin 2] [256] = .ok [256] ∧ 256 ∈ [256] ∧
    Supported wideHasher.Bitness ∧ 256 < 2 ^ wideHasher.Bitness.toNat :=
  have hr : Hash IEEE.go wideHasher [Fl.fin 2] [256] = .ok [256] := by decide!
  ⟨hr, by simp,
    Hash_word_width IEEE.go wideHasher [Fl.fin 2] [256] [256] 256 hr (by simp)⟩

/-! ## The order of the draws -/

theorem afterDraws_succ {G α : Type} (draw : G → α × G) (n : Nat) (g : G) :
    afterDraws draw (n + 1) g = afterDraws draw n (draw g).2 :=
  Function.iterate_succ_apply _ n g

theorem afterDraws_add {G α : Type} (draw : G → α × G) (m n : Nat) (g : G) :
    afterDraws draw m (afterDraws draw n g) = afterDraws draw (n + m) g := by
  unfold afterDraws
  rw [Nat.add_comm, Function.iterate_add_apply]

theorem drawNo_after {G α : Type} (draw : G → α × G) (i k : Nat) (g : G) :
    drawNo draw i (afterDraws draw k g) = drawNo draw (k + i) g := by
  unfold drawNo
  rw [afterDraws_add]

theorem fillRow_state {G α : Type} (draw : G → α × G) (n : Nat) (g : G) :
    (fillRow draw n g).2 = afterDraws draw n g := by
  induction n generalizing g with
  | zero => rfl
  | succ n ih => simp only [fillRow, ih, afterDraws_succ]

theorem fillRow_get {G α : Type} (draw : G → α × G) (n : Nat) (g : G)
    (x : Nat) (hx : x < n) :
    (fillRow draw n g).1[x]? = some (drawNo draw x g) := by
  induction n generalizing g x with
  | zero => omega
  | succ n ih =>
    cases x with
    | zero => simp [fillRow, drawNo, afterDraws]
    | succ x =>
      simp only [fillRow, List.getElem?_cons_succ]
      rw [ih (draw g).2 x (by omega)]
      simp only [drawNo, afterDraws_succ]

theorem fillTable_state {G α : Type} (draw : G → α × G) (n m : Nat) (g : G) :
    (fillTable draw n m g).2 = afterDraws draw (m * n) g := by
  induction m generalizing g with
  | zero => simp [fillTable, afterDraws]
  | succ m ih =>
    simp only [fillTable, ih, fillRow_state, afterDraws_add]
    congr 1
    rw [Nat.succ_mul, Nat.add_comm]

theorem fillTable_get {G α : Type} (draw : G → α × G) (n m : Nat) (g : G)
    (y x : Nat) (hy : y < m) (hx : x < n) :
    cell (fillTable draw n m g).1 y (x : Int) = some (drawNo draw (y * n + x) g) := by
  induction m generalizing g y with
  | zero => omega
  | succ m ih =>
    cases y with
    | zero =>
      have hx0 : ¬ (x : Int) < 0 := by omega
      simp [fillTable, cell, index, hx0, fillRow_get draw n g x hx]
    | succ y =>
      have := ih (fillRow draw n g).2 y (by omega)
      simp only [cell, fillTable, List.getElem?_cons_succ] at this ⊢
      rw [this, fillRow_state, drawNo_after]
      congr 2
      rw [Nat.succ_mul]
      omega

theorem cell_index_inj (n y x y2 x2 : Nat) (hx : x < n) (hx2 : x2 < n)
    (e : y2 * n + x2 = y * n + x) : y2 = y ∧ x2 = x := by
  have hn : 0 < n := by omega
  have e1 : (y2 * n + x2) / n = y2 := by
    rw [Nat.mul_comm, Nat.mul_add_div hn, Nat.div_eq_of_lt hx2, Nat.add_zero]
  have e2 : (y * n + x) / n = y := by
    rw [Nat.mul_comm, Nat.mul_add_div hn, Nat.div_eq_of_lt hx, Nat.add_zero]
  have hy : y2 = y := by rw [← e1, ← e2, e]
  subst hy
  exact ⟨rfl, by omega⟩

/-- C15: with `n = sampleSize * dim` and the calls of each sampler numbered
from 0 on the one source seeded with `seed`, `rs[y][x]` is Gamma draw number
`y * dim + x`, `lnCs[y][x]` is the logarithm of Gamma draw number
`n + y * dim + x`, and `betas[y][x]` comes from Uniform draw number
`y * dim + x` on the source as the `2 * n` Gamma draws leave it; the numbers
`y * dim + x` are below `n` and differ from cell to cell, so no draw serves
two cells or two tables. -/
theorem NewWeightedMinHasher_draw_order {F D G : Type} (ops : FloatOps F D)
    (R : RandOps G D) (dim sampleSize seed : Int) (hd : 0 ≤ dim)
    (hs : 0 ≤ sampleSize) :
    ∃ h, NewWeightedMinHasher ops R dim sampleSize seed = some h ∧
      ∀ (y x : Nat), (y : Int) < sampleSize → (x : Int) < dim →
        cell h.rs y x = some (ops.toF32
          (drawNo R.gammaRand (y * dim.toNat + x)
            (R.newSource (seed % 2 ^ 64).toNat))) ∧
        cell h.lnCs y x = some (ops.log (ops.toF32
          (drawNo R.gammaRand (sampleSize.toNat * dim.toNat + (y * dim.toNat + x))
            (R.newSource (seed % 2 ^ 64).toNat)))) ∧
        cell h.betas y x = some (ops.toUint16 (ops.mul64
          (drawNo R.uniformRand (y * dim.toNat + x)
            (afterDraws R.gammaRand (2 * (sampleSize.toNat * dim.toNat))
              (R.newSource (seed % 2 ^ 64).toNat)))
          (ops.ofNat64 maxUint16)) % 2 ^ 16) ∧
        y * dim.toNat + x < sampleSize.toNat * dim.toNat ∧
        ∀ (y2 x2 : Nat), (x2 : Int) < dim →
          y2 * dim.toNat + x2 = y * dim.toNat + x → y2 = y ∧ x2 = x := by
  refine ⟨_, NewWeightedMinHasher_eq ops R dim sampleSize seed hd hs, ?_⟩
  intro y x hy hx
  have hy2 : y < sampleSize.toNat := by omega
  have hx2 : x < dim.toNat := by omega
  have s1 : ∀ g, (fillTable (drawR ops R) dim.toNat sampleSize.toNat g).2 =
      afterDraws R.gammaRand (sampleSize.toNat * dim.toNat) g :=
    fun g => fillTable_state (drawR ops R) dim.toNat sampleSize.toNat g
  have s2 : ∀ g, (fillTable (drawLnC ops R) dim.toNat sampleSize.toNat g).2 =
      afterDraws R.gammaRand (sampleSize.toNat * dim.toNat) g :=
    fun g => fillTable_state (drawLnC ops R) dim.toNat sampleSize.toNat g
  refine ⟨?_, ?_, ?_, ?_, ?_⟩
  · exact fillTable_get (drawR ops R) dim.toNat sampleSize.toNat _ y x hy2 hx2
  · simp only [s1]
    rw [fillTable_get (drawLnC ops R) dim.toNat sampleSize.toNat _ y x hy2 hx2]
    have e := drawNo_after R.gammaRand (y * dim.toNat + x)
      (sampleSize.toNat * dim.toNat) (R.newSource (seed % 2 ^ 64).toNat)
    exact congrArg (fun d => some (ops.log (ops.toF32 d))) e
  · simp only [s1, s2, afterDraws_add]
    rw [fillTable_get (drawBeta ops R) dim.toNat sampleSize.toNat _ y x hy2 hx2]
    have e : sampleSize.toNat * dim.toNat + sampleSize.toNat * dim.toNat =
        2 * (sampleSize.toNat * dim.toNat) := by omega
    rw [e]
    rfl
  · calc y * dim.toNat + x < y * dim.toNat + dim.toNat := by omega
      _ = (y + 1) * dim.toNat := by rw [Nat.succ_mul]
      _ ≤ sampleSize.toNat * dim.toNat := Nat.mul_le_mul_right _ hy2
  · intro y2 x2 hx3 e
    exact cell_index_inj dim.toNat y x y2 x2 hx2 (by omega) e

/-- C15 at `dim = 4`, `sampleSize = 2`, `seed = 1` with `counterRand`. -/
theorem NewWeightedMinHasher_draw_order_witness :
    (0 : Int) ≤ 4 ∧ (0 : Int) ≤ 2 ∧
    ∃ h, NewWeightedMinHasher IEEE.go counterRand 4 2 1 = some h ∧
      ∀ (y x : Nat), (y : Int) < 2 → (x : Int) < 4 →
        cell h.rs y x = some (IEEE.go.toF32
          (drawNo counterRand.gammaRand (y * (4 : Int).toNat + x)
            (counterRand.newSource ((1 : Int) % 2 ^ 64).toNat))) ∧
        cell h.lnCs y x = some (IEEE.go.log (IEEE.go.toF32
          (drawNo counterRand.gammaRand
            ((2 : Int).toNat * (4 : Int).toNat + (y * (4 : Int).toNat + x))
            (counterRand.newSource ((1 : Int) % 2 ^ 64).toNat)))) ∧
        cell h.betas y x = some (IEEE.go.toUint16 (IEEE.go.mul64
          (drawNo counterRand.uniformRand (y * (4 : Int).toNat + x)
            (afterDraws counterRand.gammaRand
              (2 * ((2 : Int).toNat * (4 : Int).toNat))
              (counterRand.newSource ((1 : Int) % 2 ^ 64).toNat)))
          (IEEE.go.ofNat64 maxUint16)) % 2 ^ 16) ∧
        y * (4 : Int).toNat + x < (2 : Int).toNat * (4 : Int).toNat ∧
        ∀ (y2 x2 : Nat), (x2 : Int) < 4 →
          y2 * (4 : Int).toNat + x2 = y * (4 : Int).toNat + x →
          y2 = y ∧ x2 = x :=
  ⟨by decide, by decide,
    NewWeightedMinHasher_draw_order IEEE.go counterRand 4 2 1 (by decide)
      (by decide)⟩

/-! ## The tables as a function of the draws -/

theorem fillRow_congr {G1 G2 α : Type} (d1 : G1 → α × G1) (d2 : G2 → α × G2)
    (n : Nat) (g1 : G1) (g2 : G2)
    (h : ∀ i, i < n → drawNo d1 i g1 = drawNo d2 i g2) :
    (fillRow d1 n g1).1 = (fillRow d2 n g2).1 := by
  induction n generalizing g1 g2 with
  | zero => rfl
  | succ n ih =>
    have h0 : (d1 g1).1 = (d2 g2).1 := h 0 (by omega)
    have ht := ih (d1 g1).2 (d2 g2).2 (fun i hi => by
      have := h (i + 1) (by omega)
      simpa only [drawNo, afterDraws_succ] using this)
    simp only [fillRow, h0, ht]

theorem fillTable_congr {G1 G2 α : Type} (d1 : G1 → α × G1) (d2 : G2 → α × G2)
    (n m : Nat) (g1 : G1) (g2 : G2)
    (h : ∀ i, i < m * n → drawNo d1 i g1 = drawNo d2 i g2) :
    (fillTable d1 n m g1).1 = (fillTable d2 n m g2).1 := by
  induction m generalizing g1 g2 with
  | zero => rfl
  | succ m ih =>
    have hle : n ≤ (m + 1) * n := by rw [Nat.succ_mul]; omega
    have h0 := fillRow_congr d1 d2 n g1 g2 (fun i hi => h i (by omega))
    have ht := ih (fillRow d1 n g1).2 (fillRow d2 n g2).2 (fun i hi => by
      rw [fillRow_state, fillRow_state, drawNo_after, drawNo_after]
      exact h (n + i) (by rw [Nat.succ_mul]; omega))
    simp only [fillTable, h0, ht]

theorem drawNo_drawR {F D G : Type} (ops : FloatOps F D) (R : RandOps G D)
    (i : Nat) (g : G) :
    drawNo (drawR ops R) i g = ops.toF32 (drawNo R.gammaRand i g) :=
  rfl

theorem drawNo_drawLnC {F D G : Type} (ops : FloatOps F D) (R : RandOps G D)
    (i : Nat) (g : G) :
    drawNo (drawLnC ops R) i g = ops.log (ops.toF32 (drawNo R.gammaRand i g)) :=
  rfl

theorem drawNo_drawBeta {F D G : Type} (ops : FloatOps F D) (R : RandOps G D)
    (i : Nat) (g : G) :
    drawNo (drawBeta ops R) i g =
      ops.toUint16 (ops.mul64 (drawNo R.uniformRand i g)
        (ops.ofNat64 maxUint16)) % 2 ^ 16 :=
  rfl

theorem NewWeightedMinHasher_congr {F D G1 G2 : Type}
    (ops : FloatOps F D) (R1 : RandOps G1 D) (R2 : RandOps G2 D)
    (dim sampleSize seed : Int)
    (hg : ∀ i, i < 2 * (sampleSize.toNat * dim.toNat) →
      drawNo R1.gammaRand i (R1.newSource (seed % 2 ^ 64).toNat) =
        drawNo R2.gammaRand i (R2.newSource (seed % 2 ^ 64).toNat))
    (hu : ∀ i, i < sampleSize.toNat * dim.toNat →
      drawNo R1.uniformRand i
          (afterDraws R1.gammaRand (2 * (sampleSize.toNat * dim.toNat))
            (R1.newSource (seed % 2 ^ 64).toNat)) =
        drawNo R2.uniformRand i
          (afterDraws R2.gammaRand (2 * (sampleSize.toNat * dim.toNat))
            (R2.newSource (seed % 2 ^ 64).toNat))) :
    NewWeightedMinHasher ops R1 dim sampleSize seed =
      NewWeightedMinHasher ops R2 dim sampleSize seed := by
  unfold NewWeightedMinHasher
  by_cases c1 : sampleSize < 0
  · rw [if_pos c1, if_pos c1]
  by_cases c2 : 0 < sampleSize ∧ dim < 0
  · rw [if_neg c1, if_pos c2, if_neg c1, if_pos c2]
  rw [if_neg c1, if_neg c2, if_neg c1, if_neg c2]
  have s1 : ∀ (G : Type) (R : RandOps G D) (g : G),
      (fillTable (drawR ops R) dim.toNat sampleSize.toNat g).2 =
        afterDraws R.gammaRand (sampleSize.toNat * dim.toNat) g :=
    fun G R g => fillTable_state (drawR ops R) dim.toNat sampleSize.toNat g
  have s2 : ∀ (G : Type) (R : RandOps G D) (g : G),
      (fillTable (drawLnC ops R) dim.toNat sampleSize.toNat g).2 =
        afterDraws R.gammaRand (sampleSize.toNat * dim.toNat) g :=
    fun G R g => fillTable_state (drawLnC ops R) dim.toNat sampleSize.toNat g
  have e : sampleSize.toNat * dim.toNat + sampleSize.toNat * dim.toNat =
      2 * (sampleSize.toNat * dim.toNat) := by omega
  have t1 := fillTable_congr (drawR ops R1) (drawR ops R2) dim.toNat
    sampleSize.toNat (R1.newSource (seed % 2 ^ 64).toNat)
    (R2.newSource (seed % 2 ^ 64).toNat)
    (fun i hi => by rw [drawNo_drawR, drawNo_drawR, hg i (by omega)])
  have t2 := fillTable_congr (drawLnC ops R1) (drawLnC ops R2) dim.toNat
    sampleSize.toNat
    (afterDraws R1.gammaRand (sampleSize.toNat * dim.toNat)
      (R1.newSource (seed % 2 ^ 64).toNat))
    (afterDraws R2.gammaRand (sampleSize.toNat * dim.toNat)
      (R2.newSource (seed % 2 ^ 64).toNat))
    (fun i hi => by
      rw [drawNo_drawLnC, drawNo_drawLnC, drawNo_after, drawNo_after,
        hg (sampleSize.toNat * dim.toNat + i) (by omega)])
  have t3 := fillTable_congr (drawBeta ops R1) (drawBeta ops R2) dim.toNat
    sampleSize.toNat
    (afterDraws R1.gammaRand (2 * (sampleSize.toNat * dim.toNat))
      (R1.newSource (seed % 2 ^ 64).toNat))
    (afterDraws R2.gammaRand (2 * (sampleSize.toNat * dim.toNat))
      (R2.newSource (seed % 2 ^ 64).toNat))
    (fun i hi => by rw [drawNo_drawBeta, drawNo_drawBeta, hu i hi])
  simp only [s1, s2, afterDraws_add, e, t1, t2, t3]

/-- C9: the tables are fixed by `dim`, `sampleSize` and the draws of the
source seeded with `seed`, and by nothing else.  Two constructions with the
same `dim`, `sampleSize` and `seed`, each on a source of its own (with a state
of its own) that returns the same Gamma draws and then the same Uniform draws
as the other, as one library does twice for one seed, end alike: both fail, or
both return a hasher, with the same `rs`, `lnCs` and `betas`, and `Hash`
returns the same result on the two hashers for every input. -/
theorem NewWeightedMinHasher_deterministic {F D G1 G2 : Type}
    (ops : FloatOps F D) (R1 : RandOps G1 D) (R2 : RandOps G2 D)
    (dim sampleSize seed : Int)
    (hg : ∀ i, i < 2 * (sampleSize.toNat * dim.toNat) →
      drawNo R1.gammaRand i (R1.newSource (seed % 2 ^ 64).toNat) =
        drawNo R2.gammaRand i (R2.newSource (seed % 2 ^ 64).toNat))
    (hu : ∀ i, i < sampleSize.toNat * dim.toNat →
      drawNo R1.uniformRand i
          (afterDraws R1.gammaRand (2 * (sampleSize.toNat * dim.toNat))
            (R1.newSource (seed % 2 ^ 64).toNat)) =
        drawNo R2.uniformRand i
          (afterDraws R2.gammaRand (2 * (sampleSize.toNat * dim.toNat))
            (R2.newSource (seed % 2 ^ 64).toNat))) :
    NewWeightedMinHasher ops R1 dim sampleSize seed =
      NewWeightedMinHasher ops R2 dim sampleSize seed ∧
    ∀ h1 h2, NewWeightedMinHasher ops R1 dim sampleSize seed = some h1 →
      NewWeightedMinHasher ops R2 dim sampleSize seed = some h2 →
      h1.rs = h2.rs ∧ h1.lnCs = h2.lnCs ∧ h1.betas = h2.betas ∧
      ∀ values indices,
        Hash ops h1 values indices = Hash ops h2 values indices := by
  have key := NewWeightedMinHasher_congr ops R1 R2 dim sampleSize seed hg hu
  refine ⟨key, ?_⟩
  intro h1 h2 e1 e2
  have e : h1 = h2 := Option.some.inj (e1.symm.trans (key.trans e2))
  subst e
  exact ⟨rfl, rfl, rfl, fun _ _ => rfl⟩

/-- C9 at `dim = 4`, `sampleSize = 2`, `seed = 1`, on the sources
`counterRand` and `pairRand`: both constructions return `sampleHasher`, and
`Hash` returns the same 2 elements for the values `[1.0, 2.0]` at indices
`[0, 2]`. -/
theorem NewWeightedMinHasher_deterministic_witness :
    (∀ i, i < 2 * ((2 : Int).toNat * (4 : Int).toNat) →
      drawNo counterRand.gammaRand i
          (counterRand.newSource ((1 : Int) % 2 ^ 64).toNat) =
        drawNo pairRand.gammaRand i
          (pairRand.newSource ((1 : Int) % 2 ^ 64).toNat)) ∧
    (∀ i, i < (2 : Int).toNat * (4 : Int).toNat →
      drawNo counterRand.uniformRand i
          (afterDraws counterRand.gammaRand
            (2 * ((2 : Int).toNat * (4 : Int).toNat))
            (counterRand.newSource ((1 : Int) % 2 ^ 64).toNat)) =
        drawNo pairRand.uniformRand i
          (afterDraws pairRand.gammaRand
            (2 * ((2 : Int).toNat * (4 : Int).toNat))
            (pairRand.newSource ((1 : Int) % 2 ^ 64).toNat))) ∧
    (NewWeightedMinHasher IEEE.go counterRand 4 2 1 =
        NewWeightedMinHasher IEEE.go pairRand 4 2 1 ∧
      ∀ h1 h2, NewWeightedMinHasher IEEE.go counterRand 4 2 1 = some h1 →
        NewWeightedMinHasher IEEE.go pairRand 4 2 1 = some h2 →
        h1.rs = h2.rs ∧ h1.lnCs = h2.lnCs ∧ h1.betas = h2.betas ∧
        ∀ values indices,
          Hash IEEE.go h1 values indices = Hash IEEE.go h2 values indices) ∧
    NewWeightedMinHasher IEEE.go counterRand 4 2 1 = some sampleHasher ∧
    NewWeightedMinHasher IEEE.go pairRand 4 2 1 = some sampleHasher ∧
    Hash IEEE.go sampleHasher [Fl.fin 1, Fl.fin 2] [0, 2] =
      .ok [4294967298, 4294967298] :=
  have hg : ∀ i, i < 2 * ((2 : Int).toNat * (4 : Int).toNat) →
      drawNo counterRand.gammaRand i
          (counterRand.newSource ((1 : Int) % 2 ^ 64).toNat) =
        drawNo pairRand.gammaRand i
          (pairRand.newSource ((1 : Int) % 2 ^ 64).toNat) := by decide!
  have hu : ∀ i, i < (2 : Int).toNat * (4 : Int).toNat →
      drawNo counterRand.uniformRand i
          (afterDraws counterRand.gammaRand
            (2 * ((2 : Int).toNat * (4 : Int).toNat))
            (counterRand.newSource ((1 : Int) % 2 ^ 64).toNat)) =
        drawNo pairRand.uniformRand i
          (afterDraws pairRand.gammaRand
            (2 * ((2 : Int).toNat * (4 : Int).toNat))
            (pairRand.newSource ((1 : Int) % 2 ^ 64).toNat)) := by decide!
  ⟨hg, hu, NewWeightedMinHasher_deterministic IEEE.go counterRand pairRand 4 2 1
    hg hu, by decide!, by decide!, by decide!⟩

/-! ## Exact arithmetic -/

theorem Exact.betaOf_eq {K : Type} [LinearOrderedField K] [FloorRing K]
    (log : K → K) (oor : Nat → K → Nat) (b : Nat) :
    betaOf (Exact.ops K log oor) b = (b : K) / 65536 := by
  simp [betaOf, Exact.ops, maxUint16]

theorem Exact.betaOf_range {K : Type} [LinearOrderedField K] [FloorRing K]
    (log : K → K) (oor : Nat → K → Nat) (b : Nat) (hb : b < 65536) :
    0 ≤ betaOf (Exact.ops K log oor) b ∧ betaOf (Exact.ops K log oor) b < 1 := by
  rw [Exact.betaOf_eq]
  have h1 : (b : K) < 65536 := by exact_mod_cast hb
  have h0 : (0 : K) ≤ b := Nat.cast_nonneg b
  constructor
  · positivity
  · rw [div_lt_one (by norm_num)]
    exact h1

theorem Exact.tOf_eq {K : Type} [LinearOrderedField K] [FloorRing K]
    (log : K → K) (oor : Nat → K → Nat) (vlog r beta : K) :
    tOf (Exact.ops K log oor) vlog r beta = ((⌊vlog / r + beta⌋ : Int) : K) :=
  rfl

theorem Exact.lnYOf_eq {K : Type} [LinearOrderedField K] [FloorRing K]
    (log : K → K) (oor : Nat → K → Nat) (t r beta : K) :
    lnYOf (Exact.ops K log oor) t beta r = (t - beta) * r := rfl

theorem Exact.lnAOf_eq {K : Type} [LinearOrderedField K] [FloorRing K]
    (log : K → K) (oor : Nat → K → Nat) (t r beta c : K) :
    lnAOf (Exact.ops K log oor) t beta r c = c - (t - beta) * r - r := rfl

theorem Exact.lt_iff {K : Type} [LinearOrderedField K] [FloorRing K]
    (log : K → K) (oor : Nat → K → Nat) (a b : K) :
    (Exact.ops K log oor).lt a b = true ↔ a < b := by
  simp [Exact.ops]

theorem Exact.lt_false_iff {K : Type} [LinearOrderedField K] [FloorRing K]
    (log : K → K) (oor : Nat → K → Nat) (a b : K) :
    (Exact.ops K log oor).lt a b = false ↔ b ≤ a := by
  simp [Exact.ops]

/-- For `r > 0` an integer `z` brackets `vlog` between `(z - beta) * r` and
`(z - beta) * r + r` exactly when it is the floor of `vlog / r + beta`. -/
theorem Exact.bracket {K : Type} [LinearOrderedField K] [FloorRing K]
    (vlog r beta : K) (hr : 0 < r) (z : Int) :
    ((z : K) - beta) * r ≤ vlog ∧ vlog < ((z : K) - beta) * r + r ↔
      z = ⌊vlog / r + beta⌋ := by
  rw [eq_comm, Int.floor_eq_iff]
  constructor
  · rintro ⟨h1, h2⟩
    constructor
    · have : (z : K) - beta ≤ vlog / r := by
        rw [le_div_iff₀ hr]
        exact h1
      linarith
    · have : vlog / r < (z : K) - beta + 1 := by
        rw [div_lt_iff₀ hr]
        linarith
      linarith
  · rintro ⟨h1, h2⟩
    constructor
    · have : (z : K) - beta ≤ vlog / r := by linarith
      rw [le_div_iff₀ hr] at this
      exact this
    · have : vlog / r < (z : K) - beta + 1 := by linarith
      rw [div_lt_iff₀ hr] at this
      linarith

theorem Exact.candidate_eq {K : Type} [LinearOrderedField K] [FloorRing K]
    (log : K → K) (oor : Nat → K → Nat) (h : WeightedMinHasher K)
    (values : List K) (s vi : Nat) (j : Int) (v r c : K) (b : Nat)
    (hv : values[vi]? = some v) (hbeta : cell h.betas s j = some b)
    (hr : cell h.rs s j = some r) (hc : cell h.lnCs s j = some c) :
    candidate (Exact.ops K log oor) h values s vi j =
      some (c - (((⌊log v / r + (b : K) / 65536⌋ : Int) : K) - (b : K) / 65536) * r - r,
        ((⌊log v / r + (b : K) / 65536⌋ : Int) : K)) := by
  simp only [candidate, hv, hbeta, hr, hc, Exact.betaOf_eq, Exact.tOf_eq,
    Exact.lnAOf_eq]
  rfl

/-- C19: in exact arithmetic, for a pair scanned by `Hash` with
`r = rs[s][j] > 0` (and `beta = betas[s][j] / 65536`, which lies in `[0, 1)`),
`t = floor(vlog / r + beta)` is an integer, `lnY = (t - beta) * r` satisfies
`lnY ≤ vlog < lnY + r`, and `t` is the only integer with that property. -/
theorem candidate_bracket {K : Type} [LinearOrderedField K] [FloorRing K]
    (log : K → K) (oor : Nat → K → Nat) (h : WeightedMinHasher K)
    (values : List K) (s vi : Nat) (j : Int) (v r c : K) (b : Nat)
    (hv : values[vi]? = some v) (hbeta : cell h.betas s j = some b)
    (hb : b < 65536) (hr : cell h.rs s j = some r) (hpos : 0 < r)
    (hc : cell h.lnCs s j = some c) :
    ∃ z : Int,
      tOf (Exact.ops K log oor) (log v) r (betaOf (Exact.ops K log oor) b) = (z : K) ∧
      candidate (Exact.ops K log oor) h values s vi j =
        some (lnAOf (Exact.ops K log oor) (z : K)
          (betaOf (Exact.ops K log oor) b) r c, (z : K)) ∧
      0 ≤ betaOf (Exact.ops K log oor) b ∧ betaOf (Exact.ops K log oor) b < 1 ∧
      lnYOf (Exact.ops K log oor) (z : K) (betaOf (Exact.ops K log oor) b) r ≤ log v ∧
      log v < lnYOf (Exact.ops K log oor) (z : K)
        (betaOf (Exact.ops K log oor) b) r + r ∧
      ∀ z2 : Int,
        lnYOf (Exact.ops K log oor) (z2 : K) (betaOf (Exact.ops K log oor) b) r ≤ log v →
        log v < lnYOf (Exact.ops K log oor) (z2 : K)
          (betaOf (Exact.ops K log oor) b) r + r →
        z2 = z := by
  obtain ⟨b0, b1⟩ := Exact.betaOf_range log oor b hb
  refine ⟨⌊log v / r + betaOf (Exact.ops K log oor) b⌋, rfl, ?_, b0, b1, ?_, ?_, ?_⟩
  · rw [Exact.candidate_eq log oor h values s vi j v r c b hv hbeta hr hc,
      Exact.lnAOf_eq, Exact.betaOf_eq]
  · exact ((Exact.bracket (log v) r _ hpos _).2 rfl).1
  · exact ((Exact.bracket (log v) r _ hpos _).2 rfl).2
  · intro z2 h1 h2
    exact (Exact.bracket (log v) r _ hpos z2).1 ⟨h1, h2⟩

/-- C19 at `exactHasher`, on the pair at position 1 of the input `[2, 3]` at
`[0, 1]`: `r = 3/2`, `beta = 1/2`, `vlog = 2`, `t = 1`. -/
theorem candidate_bracket_witness :
    [(2 : ℚ), 3][1]? = some 3 ∧ cell exactHasher.betas 0 1 = some 32768 ∧
    32768 < 65536 ∧ cell exactHasher.rs 0 1 = some (3 / 2) ∧
    (0 : ℚ) < 3 / 2 ∧ cell exactHasher.lnCs 0 1 = some 0 ∧
    ∃ z : Int,
      tOf Exact.q (Exact.lin 3) (3 / 2) (betaOf Exact.q 32768) = (z : ℚ) ∧
      candidate Exact.q exactHasher [2, 3] 0 1 1 =
        some (lnAOf Exact.q (z : ℚ) (betaOf Exact.q 32768) (3 / 2) 0, (z : ℚ)) ∧
      0 ≤ betaOf Exact.q 32768 ∧ betaOf Exact.q 32768 < 1 ∧
      lnYOf Exact.q (z : ℚ) (betaOf Exact.q 32768) (3 / 2) ≤ Exact.lin 3 ∧
      Exact.lin 3 < lnYOf Exact.q (z : ℚ) (betaOf Exact.q 32768) (3 / 2) + 3 / 2 ∧
      ∀ z2 : Int,
        lnYOf Exact.q (z2 : ℚ) (betaOf Exact.q 32768) (3 / 2) ≤ Exact.lin 3 →
        Exact.lin 3 < lnYOf Exact.q (z2 : ℚ) (betaOf Exact.q 32768) (3 / 2) + 3 / 2 →
        z2 = z :=
  ⟨rfl, by decide!, by decide, by decide!, by norm_num, by decide!,
    candidate_bracket Exact.lin (fun _ _ => 0) exactHasher [2, 3] 0 1 1 3 (3 / 2)
      0 32768 rfl (by decide!) (by decide) (by decide!) (by norm_num)
      (by decide!)⟩

/-! ## Consistency of the selection -/

theorem candAt_unique {F D : Type} (ops : FloatOps F D) (h : WeightedMinHasher F)
    (values : List F) (s : Nat) (js : List Int) (vi p : Nat) (j j2 : Int)
    (a t a2 t2 : F) (h1 : CandAt ops h values s js vi p j a t)
    (h2 : CandAt ops h values s js vi p j2 a2 t2) : j2 = j ∧ a2 = a ∧ t2 = t := by
  obtain ⟨e1, c1⟩ := h1
  obtain ⟨e2, c2⟩ := h2
  rw [e1] at e2
  cases e2
  rw [c1] at c2
  cases c2
  exact ⟨rfl, rfl, rfl⟩

/-- The position that `SelectsAt` describes is the one the scan ends on. -/
theorem selectsAt_scan {F D : Type} (ops : FloatOps F D)
    (h : WeightedMinHasher F) (values : List F) (s : Nat) (indices : List Int)
    (S : F → Prop) (hS : StrictWeakOn ops.lt S) (hmax : S ops.maxFloat32)
    (hall : ∀ p j a t, CandAt ops h values s indices 0 p j a t → S a)
    (p : Nat) (j : Int) (a t : F)
    (hp : CandAt ops h values s indices 0 p j a t)
    (hsel : SelectsAt ops h values s indices p) (sel : Sel F)
    (hscan : scan ops h values s indices 0 (Sel.init ops) = .ok sel) :
    sel = ⟨a, j, t⟩ := by
  obtain ⟨j0, a0, t0, hp0, hlt, hmin, hear⟩ := hsel
  obtain ⟨rfl, rfl, rfl⟩ := candAt_unique ops h values s indices 0 p j j0 a t a0 t0 hp hp0
  rcases scan_min ops h values s S hS indices 0 (Sel.init ops) sel hmax hall
      hscan with ⟨-, hno⟩ | ⟨p2, j2, a2, t2, hp2, he, -, hmin2, hear2⟩
  · have := hno p j0 a0 t0 hp
    rw [show (Sel.init ops).minLnA = ops.maxFloat32 from rfl, hlt] at this
    cases this
  · rcases Nat.lt_trichotomy p2 p with hlt2 | heq | hgt
    · have c1 := hear p2 j2 a2 t2 hlt2 hp2
      have c2 := hmin2 p j0 a0 t0 hp
      rw [c1] at c2
      cases c2
    · subst heq
      obtain ⟨rfl, rfl, rfl⟩ :=
        candAt_unique ops h values s indices 0 p2 j0 j2 a0 t0 a2 t2 hp hp2
      exact he
    · have c1 := hear2 p j0 a0 t0 hgt hp
      have c2 := hmin p2 j2 a2 t2 hp2
      rw [c1] at c2
      cases c2

theorem candidate_length_congr {F D : Type} (ops : FloatOps F D)
    (h : WeightedMinHasher F) (vA vB : List F) (s vi : Nat) (j : Int)
    (x : F × F) (hlen : vA.length = vB.length)
    (hc : candidate ops h vA s vi j = some x) :
    ∃ y, candidate ops h vB s vi j = some y := by
  unfold candidate at hc ⊢
  cases hva : vA[vi]? with
  | none => simp [hva] at hc
  | some va =>
    have hvi : vi < vA.length := (List.getElem?_eq_some.mp hva).1
    have hvb : vB[vi]? = some vB[vi] := List.getElem?_eq_getElem (by omega)
    rw [hva] at hc
    rw [hvb]
    cases hb : cell h.betas s j with
    | none => simp [hb] at hc
    | some b =>
      cases hr : cell h.rs s j with
      | none => simp [hb, hr] at hc
      | some r =>
        cases hcc : cell h.lnCs s j with
        | none => simp [hb, hr, hcc] at hc
        | some c => exact ⟨_, rfl⟩

theorem scan_length_congr {F D : Type} (ops : FloatOps F D)
    (h : WeightedMinHasher F) (vA vB : List F) (s : Nat) (js : List Int)
    (vi : Nat) (accA accB selA : Sel F) (hlen : vA.length = vB.length)
    (hscan : scan ops h vA s js vi accA = .ok selA) :
    ∃ selB, scan ops h vB s js vi accB = .ok selB := by
  induction js generalizing vi accA accB with
  | nil => exact ⟨accB, rfl⟩
  | cons j js ih =>
    cases hc : candidate ops h vA s vi j with
    | none => simp [scan, hc] at hscan
    | some x =>
      obtain ⟨y, hy⟩ := candidate_length_congr ops h vA vB s vi j x hlen hc
      simp only [scan, hc] at hscan
      simp only [scan, hy]
      exact ih (vi + 1) _ _ hscan

theorem cell_mem {α : Type} (tbl : List (List α)) (s : Nat) (j : Int) (x : α)
    (hc : cell tbl s j = some x) : ∃ row ∈ tbl, x ∈ row := by
  unfold cell at hc
  cases hrow : tbl[s]? with
  | none => simp [hrow] at hc
  | some row =>
    rw [hrow] at hc
    unfold index at hc
    split_ifs at hc
    exact ⟨row, List.getElem?_mem hrow, List.getElem?_mem hc⟩

theorem Exact.strictWeak {K : Type} [LinearOrderedField K] [FloorRing K]
    (log : K → K) (oor : Nat → K → Nat) :
    StrictWeakOn (Exact.ops K log oor).lt (fun _ => True) := by
  refine ⟨?_, ?_, ?_⟩
  · intro a _
    simp [Exact.ops]
  · intro a b c _ _ _ h1 h2
    rw [Exact.lt_iff] at h1 h2 ⊢
    exact lt_trans h1 h2
  · intro a b c _ _ _ h1
    rw [Exact.lt_iff] at h1
    rw [Exact.lt_iff, Exact.lt_iff]
    exact LT.lt.lt_or_lt h1 b

/-- In exact arithmetic, with a positive `rs` entry and a non-decreasing
logarithm, the `lnA` of a pair does not decrease when its value decreases, and
stays the same when its `t` does. -/
theorem Exact.candAt_mono {K : Type} [LinearOrderedField K] [FloorRing K]
    (log : K → K) (oor : Nat → K → Nat) (h : WeightedMinHasher K)
    (vA vB : List K) (s : Nat) (js : List Int) (q : Nat) (j : Int) (aB tB : K)
    (hmono : ∀ x y, 0 < x → x ≤ y → log x ≤ log y)
    (hpos : ∀ row ∈ h.rs, ∀ r ∈ row, 0 < r)
    (hlen : vA.length = vB.length)
    (hle : ∀ (i : Nat) (a b : K), vA[i]? = some a → vB[i]? = some b →
      0 < b ∧ b ≤ a)
    (hB : CandAt (Exact.ops K log oor) h vB s js 0 q j aB tB) :
    ∃ aA tA, CandAt (Exact.ops K log oor) h vA s js 0 q j aA tA ∧ aA ≤ aB ∧
      (tB = tA → aB = aA) := by
  obtain ⟨hj, hc⟩ := hB
  rw [Nat.zero_add] at hc
  cases hvb : vB[q]? with
  | none => simp [candidate, hvb] at hc
  | some vb =>
    cases hb : cell h.betas s j with
    | none => simp [candidate, hvb, hb] at hc
    | some b =>
      cases hr : cell h.rs s j with
      | none => simp [candidate, hvb, hb, hr] at hc
      | some r =>
        cases hcc : cell h.lnCs s j with
        | none => simp [candidate, hvb, hb, hr, hcc] at hc
        | some c =>
          have hq : q < vB.length := (List.getElem?_eq_some.mp hvb).1
          have hva : vA[q]? = some vA[q] :=
            List.getElem?_eq_getElem (by omega)
          obtain ⟨hb0, hba⟩ := hle q _ vb hva hvb
          obtain ⟨row, hrow, hrin⟩ := cell_mem h.rs s j r hr
          have hrpos : 0 < r := hpos row hrow r hrin
          have hlog : log vb ≤ log vA[q] := hmono _ _ hb0 hba
          rw [Exact.candidate_eq log oor h vB s q j vb r c b hvb hb hr hcc]
            at hc
          cases hc
          have hA := Exact.candidate_eq log oor h vA s q j _ r c b hva hb hr hcc
          refine ⟨_, _, ⟨hj, by rw [Nat.zero_add]; exact hA⟩, ?_, ?_⟩
          · have hfl : ⌊log vb / r + (b : K) / 65536⌋ ≤
                ⌊log vA[q] / r + (b : K) / 65536⌋ := by
              apply Int.floor_le_floor
              have := div_le_div_of_nonneg_right hlog (le_of_lt hrpos)
              linarith
            have hfl2 : ((⌊log vb / r + (b : K) / 65536⌋ : Int) : K) ≤
                ((⌊log vA[q] / r + (b : K) / 65536⌋ : Int) : K) := by
              exact_mod_cast hfl
            have := mul_le_mul_of_nonneg_right
              (sub_le_sub_right hfl2 ((b : K) / 65536)) (le_of_lt hrpos)
            linarith
          · intro ht
            rw [ht]

theorem exactHasher_candA0 :
    candidate Exact.q exactHasher [2, 3] 0 0 0 = some (-3 / 8, 2) := by decide!

theorem exactHasher_candA1 :
    candidate Exact.q exactHasher [2, 3] 0 1 1 = some (-9 / 4, 1) := by decide!

theorem exactHasher_candB1 :
    candidate Exact.q exactHasher [1, 5 / 2] 0 1 1 = some (-9 / 4, 1) := by decide!

theorem exactHasher_selectsA :
    SelectsAt Exact.q exactHasher [2, 3] 0 [0, 1] 1 := by
  refine ⟨1, -9 / 4, 1, ⟨rfl, exactHasher_candA1⟩, by decide!, ?_, ?_⟩
  · intro q j1 a1 t1 hq
    obtain ⟨h1, h2⟩ := hq
    rcases q with _ | _ | q
    · simp at h1
      subst h1
      rw [Nat.add_zero, exactHasher_candA0] at h2
      cases h2
      decide!
    · simp at h1
      subst h1
      rw [Nat.zero_add, exactHasher_candA1] at h2
      cases h2
      decide!
    · simp at h1
  · intro q j1 a1 t1 hlt hq
    obtain ⟨h1, h2⟩ := hq
    have hq0 : q = 0 := by omega
    subst hq0
    simp at h1
    subst h1
    rw [Nat.add_zero, exactHasher_candA0] at h2
    cases h2
    decide!

/-- C18: in exact arithmetic, with every `rs` entry positive and a
non-decreasing logarithm, for a fixed hasher, sample `s` and index sequence: if
the values of input `B` are positive and pointwise at most those of input `A`,
and the position `p` selected for `A` in sample `s` has the same `t` under `B`
as under `A`, then position `p` is selected for `B` as well; the scan of `B`
ends on the very selection the scan of `A` ends on, and element `s` of the
two results of `Hash` is the same. -/
theorem scan_consistent {K : Type} [LinearOrderedField K] [FloorRing K]
    (log : K → K) (oor : Nat → K → Nat) (h : WeightedMinHasher K)
    (valuesA valuesB : List K) (indices : List Int) (s p : Nat)
    (hmono : ∀ x y, 0 < x → x ≤ y → log x ≤ log y)
    (hpos : ∀ row ∈ h.rs, ∀ r ∈ row, 0 < r)
    (hlen : valuesA.length = valuesB.length)
    (hle : ∀ (i : Nat) (a b : K), valuesA[i]? = some a →
      valuesB[i]? = some b → 0 < b ∧ b ≤ a)
    (hA : SelectsAt (Exact.ops K log oor) h valuesA s indices p)
    (hsame : ∀ j aA tA aB tB,
      CandAt (Exact.ops K log oor) h valuesA s indices 0 p j aA tA →
      CandAt (Exact.ops K log oor) h valuesB s indices 0 p j aB tB → tB = tA) :
    SelectsAt (Exact.ops K log oor) h valuesB s indices p ∧
    (∀ sel, scan (Exact.ops K log oor) h valuesA s indices 0
        (Sel.init (Exact.ops K log oor)) = .ok sel →
      scan (Exact.ops K log oor) h valuesB s indices 0
        (Sel.init (Exact.ops K log oor)) = .ok sel) ∧
    (∀ rA rB, Hash (Exact.ops K log oor) h valuesA indices = .ok rA →
      Hash (Exact.ops K log oor) h valuesB indices = .ok rB →
      rA[s]? = rB[s]?) := by
  have hA2 := hA
  obtain ⟨j, a, t, hp, hlt, hmin, hear⟩ := hA
  obtain ⟨⟨aB, tB⟩, hcB⟩ :=
    candidate_length_congr (Exact.ops K log oor) h valuesA valuesB s (0 + p) j
      (a, t) hlen hp.2
  have hpB0 : CandAt (Exact.ops K log oor) h valuesB s indices 0 p j aB tB :=
    ⟨hp.1, hcB⟩
  obtain ⟨aA, tA, hpA, -, heq⟩ :=
    Exact.candAt_mono log oor h valuesA valuesB s indices p j aB tB hmono hpos
      hlen hle hpB0
  obtain ⟨-, rfl, rfl⟩ :=
    candAt_unique (Exact.ops K log oor) h valuesA s indices 0 p j j a t aA tA hp hpA
  have ht : tB = tA := hsame j aA tA aB tB hp hpB0
  have ha : aB = aA := heq ht
  subst ht
  subst ha
  have hselB : SelectsAt (Exact.ops K log oor) h valuesB s indices p := by
    refine ⟨j, aB, tB, hpB0, hlt, ?_, ?_⟩
    · intro q j1 a1 t1 hq
      obtain ⟨a1A, t1A, hqA, hle1, -⟩ :=
        Exact.candAt_mono log oor h valuesA valuesB s indices q j1 a1 t1 hmono
          hpos hlen hle hq
      have := (Exact.lt_false_iff log oor a1A aB).1 (hmin q j1 a1A t1A hqA)
      exact (Exact.lt_false_iff log oor a1 aB).2 (le_trans this hle1)
    · intro q j1 a1 t1 hqp hq
      obtain ⟨a1A, t1A, hqA, hle1, -⟩ :=
        Exact.candAt_mono log oor h valuesA valuesB s indices q j1 a1 t1 hmono
          hpos hlen hle hq
      have := (Exact.lt_iff log oor aB a1A).1 (hear q j1 a1A t1A hqp hqA)
      exact (Exact.lt_iff log oor aB a1).2 (lt_of_lt_of_le this hle1)
  have hscanAB : ∀ sel, scan (Exact.ops K log oor) h valuesA s indices 0
        (Sel.init (Exact.ops K log oor)) = .ok sel →
      scan (Exact.ops K log oor) h valuesB s indices 0
        (Sel.init (Exact.ops K log oor)) = .ok sel := by
    intro sel hscan
    have e1 := selectsAt_scan (Exact.ops K log oor) h valuesA s indices
      (fun _ => True) (Exact.strictWeak log oor) trivial (fun _ _ _ _ _ => trivial)
      p j aB tB hp hA2 sel hscan
    obtain ⟨selB, hscanB⟩ :=
      scan_length_congr (Exact.ops K log oor) h valuesA valuesB s indices 0 _
        (Sel.init (Exact.ops K log oor)) sel hlen hscan
    have e2 := selectsAt_scan (Exact.ops K log oor) h valuesB s indices
      (fun _ => True) (Exact.strictWeak log oor) trivial (fun _ _ _ _ _ => trivial)
      p j aB tB hpB0 hselB selB hscanB
    rw [hscanB, e2, e1]
  refine ⟨hselB, hscanAB, ?_⟩
  intro rA rB eA eB
  have lA := Hash_ok_length (Exact.ops K log oor) h valuesA indices rA eA
  have lB := Hash_ok_length (Exact.ops K log oor) h valuesB indices rB eB
  by_cases hs : (s : Int) < h.sampleSize
  · obtain ⟨w1, sel1, hw1, hs1, hp1⟩ :=
      Hash_get (Exact.ops K log oor) h valuesA indices rA eA s hs
    obtain ⟨w2, sel2, hw2, hs2, hp2⟩ :=
      Hash_get (Exact.ops K log oor) h valuesB indices rB eB s hs
    have := hscanAB sel1 hs1
    rw [hs2] at this
    cases this
    rw [hp1] at hp2
    cases hp2
    rw [hw1, hw2]
  · have n1 : rA[s]? = none := List.getElem?_eq_none (by omega)
    have n2 : rB[s]? = none := List.getElem?_eq_none (by omega)
    rw [n1, n2]

/-- C18 at `exactHasher`, sample 0, indices `[0, 1]`, `A = [2, 3]` and
`B = [1, 5/2]`: position 1 is selected for both. -/
theorem scan_consistent_witness :
    (∀ x y : ℚ, 0 < x → x ≤ y → Exact.lin x ≤ Exact.lin y) ∧
    (∀ row ∈ exactHasher.rs, ∀ r ∈ row, 0 < r) ∧
    [(2 : ℚ), 3].length = [(1 : ℚ), 5 / 2].length ∧
    (∀ (i : Nat) (a b : ℚ), [(2 : ℚ), 3][i]? = some a →
      [(1 : ℚ), 5 / 2][i]? = some b → 0 < b ∧ b ≤ a) ∧
    SelectsAt Exact.q exactHasher [2, 3] 0 [0, 1] 1 ∧
    SelectsAt Exact.q exactHasher [1, 5 / 2] 0 [0, 1] 1 ∧
    (∀ sel, scan Exact.q exactHasher [2, 3] 0 [0, 1] 0 (Sel.init Exact.q) =
        .ok sel →
      scan Exact.q exactHasher [1, 5 / 2] 0 [0, 1] 0 (Sel.init Exact.q) =
        .ok sel) ∧
    (∀ rA rB, Hash Exact.q exactHasher [2, 3] [0, 1] = .ok rA →
      Hash Exact.q exactHasher [1, 5 / 2] [0, 1] = .ok rB → rA[0]? = rB[0]?) :=
  have hmono : ∀ x y : ℚ, 0 < x → x ≤ y → Exact.lin x ≤ Exact.lin y := by
    intro x y _ hxy
    unfold Exact.lin
    linarith
  have hpos : ∀ row ∈ exactHasher.rs, ∀ r ∈ row, 0 < r := by
    intro row hrow r hr
    simp [exactHasher] at hrow
    subst hrow
    simp at hr
    rcases hr with rfl | rfl <;> norm_num
  have hle : ∀ (i : Nat) (a b : ℚ), [(2 : ℚ), 3][i]? = some a →
      [(1 : ℚ), 5 / 2][i]? = some b → 0 < b ∧ b ≤ a := by
    intro i a b ha hb
    rcases i with _ | _ | i
    · simp at ha hb
      subst ha
      subst hb
      norm_num
    · simp at ha hb
      subst ha
      subst hb
      norm_num
    · simp at ha
  have hsame : ∀ j aA tA aB tB,
      CandAt Exact.q exactHasher [2, 3] 0 [0, 1] 0 1 j aA tA →
      CandAt Exact.q exactHasher [1, 5 / 2] 0 [0, 1] 0 1 j aB tB → tB = tA := by
    intro j aA tA aB tB h1 h2
    obtain ⟨e1, c1⟩ := h1
    obtain ⟨e2, c2⟩ := h2
    simp at e1
    subst e1
    rw [Nat.zero_add, exactHasher_candA1] at c1
    rw [Nat.zero_add, exactHasher_candB1] at c2
    cases c1
    cases c2
    rfl
  ⟨hmono, hpos, rfl, hle, exactHasher_selectsA,
    scan_consistent Exact.lin (fun _ _ => 0) exactHasher [2, 3] [1, 5 / 2] [0, 1]
      0 1 hmono hpos rfl hle exactHasher_selectsA hsame⟩

/-! ## Values that the rounding leaves unchanged -/

theorem Fl.halvings_spec (fuel n : Nat) (hn : n ≠ 0) (hf : n ≤ fuel) :
    2 ^ Fl.halvings fuel n ≤ n ∧ n < 2 ^ (Fl.halvings fuel n + 1) := by
  induction fuel generalizing n with
  | zero => omega
  | succ fuel ih =>
    unfold Fl.halvings
    by_cases h2 : n < 2
    · simp only [h2, if_true]
      omega
    · simp only [h2, if_false]
      obtain ⟨i1, i2⟩ := ih (n / 2) (by omega) (by omega)
      constructor
      · rw [Nat.pow_succ]
        omega
      · rw [Nat.pow_succ] at i2 ⊢
        omega

theorem Fl.natLog2_spec (n : Nat) (hn : n ≠ 0) :
    2 ^ Fl.natLog2 n ≤ n ∧ n < 2 ^ (Fl.natLog2 n + 1) :=
  Fl.halvings_spec n n hn (le_refl n)

theorem Fl.abs_eq_div (q : ℚ) : |q| = (q.num.natAbs : ℚ) / (q.den : ℚ) := by
  have hden : (0 : ℚ) < q.den := by exact_mod_cast q.den_pos
  conv_lhs => rw [← Rat.num_div_den q]
  rw [abs_div, abs_of_pos hden, Nat.cast_natAbs, Int.cast_abs]

theorem Fl.ilog2_le (q : ℚ) (hq : q ≠ 0) : (2 : ℚ) ^ Fl.ilog2 q ≤ |q| := by
  unfold Fl.ilog2
  simp only
  split_ifs with hc
  · exact hc
  · have hnum : q.num.natAbs ≠ 0 := by
      simpa using Rat.num_ne_zero.mpr hq
    obtain ⟨a1, -⟩ := Fl.natLog2_spec q.num.natAbs hnum
    obtain ⟨-, d2⟩ := Fl.natLog2_spec q.den q.den_nz
    have hden : (0 : ℚ) < q.den := by exact_mod_cast q.den_pos
    rw [Fl.abs_eq_div, le_div_iff₀ hden]
    have a1q : (2 : ℚ) ^ Fl.natLog2 q.num.natAbs ≤ (q.num.natAbs : ℚ) := by
      exact_mod_cast a1
    have d2q : (q.den : ℚ) ≤ 2 ^ (Fl.natLog2 q.den + 1) := by
      exact_mod_cast le_of_lt d2
    have e : (2 : ℚ) ^ ((Fl.natLog2 q.num.natAbs : Int) - (Fl.natLog2 q.den : Int) - 1) *
        2 ^ (Fl.natLog2 q.den + 1) = 2 ^ Fl.natLog2 q.num.natAbs := by
      rw [← zpow_natCast, ← zpow_natCast, ← zpow_add₀ (by norm_num)]
      congr 1
      push_cast
      ring
    calc (2 : ℚ) ^ ((Fl.natLog2 q.num.natAbs : Int) - (Fl.natLog2 q.den : Int) - 1) * q.den
        ≤ 2 ^ ((Fl.natLog2 q.num.natAbs : Int) - (Fl.natLog2 q.den : Int) - 1) *
            2 ^ (Fl.natLog2 q.den + 1) :=
          mul_le_mul_of_nonneg_left d2q (by positivity)
      _ = 2 ^ Fl.natLog2 q.num.natAbs := e
      _ ≤ q.num.natAbs := a1q

theorem Fl.roundHalfEven_intCast (N : Int) : Fl.roundHalfEven (N : ℚ) = N := by
  simp [Fl.roundHalfEven]

theorem Fl.round_exact (p : Nat) (emin emax : Int) (m : Nat) (k : Int)
    (hm : m < 2 ^ p) (hk : emin - ((p : Int) - 1) ≤ k)
    (hmax : (m : ℚ) * 2 ^ k < 2 ^ (emax + 1)) :
    Fl.round p emin emax ((m : ℚ) * 2 ^ k) = Fl.fin ((m : ℚ) * 2 ^ k) := by
  by_cases hq : (m : ℚ) * 2 ^ k = 0
  · simp [Fl.round, hq]
  · have h2k : (0 : ℚ) < 2 ^ k := by positivity
    have hm0 : (0 : ℚ) ≤ m := Nat.cast_nonneg m
    have hqpos : 0 < (m : ℚ) * 2 ^ k :=
      lt_of_le_of_ne (mul_nonneg hm0 (le_of_lt h2k)) (Ne.symm hq)
    have hmq : (m : ℚ) < 2 ^ p := by exact_mod_cast hm
    have hil : Fl.ilog2 ((m : ℚ) * 2 ^ k) < (p : Int) + k := by
      have h1 := Fl.ilog2_le _ hq
      rw [abs_of_pos hqpos] at h1
      have h2 : (m : ℚ) * 2 ^ k < 2 ^ ((p : Int) + k) := by
        rw [zpow_add₀ (by norm_num), zpow_natCast]
        exact mul_lt_mul_of_pos_right hmq h2k
      exact (zpow_lt_zpow_iff_right₀ (by norm_num : (1 : ℚ) < 2)).1
        (lt_of_le_of_lt h1 h2)
    have he : max (Fl.ilog2 ((m : ℚ) * 2 ^ k)) emin - ((p : Int) - 1) ≤ k := by
      rcases max_cases (Fl.ilog2 ((m : ℚ) * 2 ^ k)) emin with ⟨e1, -⟩ | ⟨e1, -⟩ <;>
        rw [e1] <;> omega
    obtain ⟨d, hd⟩ : ∃ d : Nat,
        k = max (Fl.ilog2 ((m : ℚ) * 2 ^ k)) emin - ((p : Int) - 1) + d :=
      ⟨(k - (max (Fl.ilog2 ((m : ℚ) * 2 ^ k)) emin - ((p : Int) - 1))).toNat,
        by omega⟩
    have hulp : (0 : ℚ) <
        2 ^ (max (Fl.ilog2 ((m : ℚ) * 2 ^ k)) emin - ((p : Int) - 1)) := by
      positivity
    have hdiv : (m : ℚ) * 2 ^ k /
        2 ^ (max (Fl.ilog2 ((m : ℚ) * 2 ^ k)) emin - ((p : Int) - 1)) =
        (((m * 2 ^ d : Nat) : Int) : ℚ) := by
      rw [div_eq_iff (ne_of_gt hulp)]
      conv_lhs => rw [hd]
      rw [zpow_add₀ (by norm_num), zpow_natCast]
      push_cast
      ring
    unfold Fl.round
    simp only [hq, if_false]
    rw [hdiv, Fl.roundHalfEven_intCast, ← hdiv, div_mul_cancel₀ _ (ne_of_gt hulp)]
    rw [abs_of_pos hqpos]
    simp [not_le.mpr hmax]

theorem Fl.round64_exact (m : Nat) (k : Int) (hm : m < 2 ^ 53) (hk : -1074 ≤ k)
    (hmax : (m : ℚ) * 2 ^ k < 2 ^ (1024 : Int)) :
    Fl.round64 ((m : ℚ) * 2 ^ k) = Fl.fin ((m : ℚ) * 2 ^ k) :=
  Fl.round_exact 53 (-1022) 1023 m k hm (by norm_num; omega) (by norm_num at hmax ⊢; exact hmax)

theorem Fl.round32_exact (m : Nat) (k : Int) (hm : m < 2 ^ 24) (hk : -149 ≤ k)
    (hmax : (m : ℚ) * 2 ^ k < 2 ^ (128 : Int)) :
    Fl.round32 ((m : ℚ) * 2 ^ k) = Fl.fin ((m : ℚ) * 2 ^ k) :=
  Fl.round_exact 24 (-126) 127 m k hm (by norm_num; omega) (by norm_num at hmax ⊢; exact hmax)

theorem Fl.round32_natCast (b : Nat) (hb : b < 65536) :
    Fl.round32 (b : ℚ) = Fl.fin (b : ℚ) := by
  have hbq : (b : ℚ) < 65536 := by exact_mod_cast hb
  have := Fl.round32_exact b 0 (by omega) (by norm_num) (by
    rw [zpow_zero, mul_one]
    exact lt_trans hbq (by norm_num))
  simpa using this

theorem Fl.betaOf_dyadic (log : Fl → Fl) (oor : Nat → Fl → Nat) (b : Nat)
    (hb : b < 65536) :
    betaOf (IEEE.ops log oor) b = Fl.fin ((b : ℚ) / 65536) := by
  have hbq : (b : ℚ) < 65536 := by exact_mod_cast hb
  have h1 : Fl.round32 ((maxUint16 : Nat) : ℚ) = Fl.fin 65536 := by decide!
  have h2 : Fl.round32 ((b : ℚ) / 65536) = Fl.fin ((b : ℚ) / 65536) := by
    have := Fl.round32_exact b (-16) (by omega) (by norm_num) (by
      have : (b : ℚ) * 2 ^ (-16 : Int) ≤ b := by
        have h0 : (0 : ℚ) ≤ b := Nat.cast_nonneg b
        have : (2 : ℚ) ^ (-16 : Int) ≤ 1 := by norm_num
        nlinarith
      exact lt_of_le_of_lt this (lt_trans hbq (by norm_num)))
    have e : (b : ℚ) * 2 ^ (-16 : Int) = (b : ℚ) / 65536 := by
      rw [zpow_neg, div_eq_mul_inv]
      norm_num
    rw [e] at this
    exact this
  simp only [betaOf, IEEE.ops, Fl.round32_natCast b hb, h1, Fl.div]
  simp [h2]

/-- C16: for every uniform draw `u` that is a binary64 value with
`0 ≤ u < 1`, the product `u * 65536` is exact, the stored value is
`b = trunc(u * 65536)` with `0 ≤ b ≤ 65535`, so the conversion to `uint16`
does not wrap, and the value `Hash` dequantises is exactly `b / 65536`, which
lies in `[0, 1)` and satisfies `b / 65536 ≤ u < b / 65536 + 1 / 65536`. -/
theorem drawBeta_quantised {G : Type} (log : Fl → Fl) (oor : Nat → Fl → Nat)
    (R : RandOps G Fl) (g : G) (m : Nat) (k : Int) (hm : m < 2 ^ 53)
    (hk : -1074 ≤ k) (hu : (R.uniformRand g).1 = Fl.fin ((m : ℚ) * 2 ^ k))
    (hu1 : (m : ℚ) * 2 ^ k < 1) :
    ∃ b : Nat, (drawBeta (IEEE.ops log oor) R g).1 = b ∧
      (IEEE.ops log oor).toUint16 ((IEEE.ops log oor).mul64 (R.uniformRand g).1
        ((IEEE.ops log oor).ofNat64 maxUint16)) = b ∧
      (b : Int) = ⌊(m : ℚ) * 2 ^ k * 65536⌋ ∧ b ≤ 65535 ∧
      betaOf (IEEE.ops log oor) b = Fl.fin ((b : ℚ) / 65536) ∧
      0 ≤ (b : ℚ) / 65536 ∧ (b : ℚ) / 65536 < 1 ∧
      (b : ℚ) / 65536 ≤ (m : ℚ) * 2 ^ k ∧
      (m : ℚ) * 2 ^ k < (b : ℚ) / 65536 + 1 / 65536 := by
  have h2k : (0 : ℚ) < 2 ^ k := by positivity
  have hu0 : (0 : ℚ) ≤ (m : ℚ) * 2 ^ k :=
    mul_nonneg (Nat.cast_nonneg m) (le_of_lt h2k)
  have hq0 : (0 : ℚ) ≤ (m : ℚ) * 2 ^ k * 65536 := by positivity
  have hq1 : (m : ℚ) * 2 ^ k * 65536 < 65536 := by linarith
  have e16 : (m : ℚ) * 2 ^ (k + 16) = (m : ℚ) * 2 ^ k * 65536 := by
    rw [zpow_add₀ (by norm_num)]
    norm_num
    ring
  have hprod : Fl.round64 ((m : ℚ) * 2 ^ k * 65536) =
      Fl.fin ((m : ℚ) * 2 ^ k * 65536) := by
    have := Fl.round64_exact m (k + 16) hm (by omega) (by
      rw [e16]
      exact lt_trans hq1 (by norm_num))
    rw [e16] at this
    exact this
  have h65536 : Fl.round64 ((maxUint16 : Nat) : ℚ) = Fl.fin 65536 := by decide!
  have hfl0 : 0 ≤ ⌊(m : ℚ) * 2 ^ k * 65536⌋ := Int.floor_nonneg.mpr hq0
  have hfl1 : ⌊(m : ℚ) * 2 ^ k * 65536⌋ < 65536 := by
    rw [Int.floor_lt]
    exact_mod_cast hq1
  have hconv : (IEEE.ops log oor).toUint16 ((IEEE.ops log oor).mul64
      (R.uniformRand g).1 ((IEEE.ops log oor).ofNat64 maxUint16)) =
      (⌊(m : ℚ) * 2 ^ k * 65536⌋).toNat := by
    rw [hu]
    simp only [IEEE.ops, h65536, Fl.mul, hprod, Fl.toUint, Fl.trunc, hq0, if_true]
    simp only [hfl0, true_and]
    norm_num
    intro hge
    omega
  have hb : (⌊(m : ℚ) * 2 ^ k * 65536⌋).toNat < 65536 := by omega
  have hbq : (((⌊(m : ℚ) * 2 ^ k * 65536⌋).toNat : Nat) : ℚ) =
      ((⌊(m : ℚ) * 2 ^ k * 65536⌋ : Int) : ℚ) := by
    have : (((⌊(m : ℚ) * 2 ^ k * 65536⌋).toNat : Nat) : Int) =
        ⌊(m : ℚ) * 2 ^ k * 65536⌋ := Int.toNat_of_nonneg hfl0
    exact_mod_cast this
  have hle := Int.floor_le ((m : ℚ) * 2 ^ k * 65536)
  have hlt := Int.lt_floor_add_one ((m : ℚ) * 2 ^ k * 65536)
  refine ⟨(⌊(m : ℚ) * 2 ^ k * 65536⌋).toNat, ?_, hconv,
    Int.toNat_of_nonneg hfl0, by omega, Fl.betaOf_dyadic log oor _ hb,
    ?_, ?_, ?_, ?_⟩
  · simp only [drawBeta, hconv]
    exact Nat.mod_eq_of_lt (by norm_num; exact hb)
  · positivity
  · rw [hbq, div_lt_one (by norm_num)]
    linarith
  · rw [hbq, div_le_iff₀ (by norm_num)]
    exact hle
  · rw [hbq]
    have : (m : ℚ) * 2 ^ k * 65536 <
        (((⌊(m : ℚ) * 2 ^ k * 65536⌋ : Int) : ℚ) / 65536 + 1 / 65536) * 65536 := by
      have e : (((⌊(m : ℚ) * 2 ^ k * 65536⌋ : Int) : ℚ) / 65536 + 1 / 65536) * 65536 =
          ((⌊(m : ℚ) * 2 ^ k * 65536⌋ : Int) : ℚ) + 1 := by
        field_simp
      rw [e]
      exact hlt
    exact lt_of_mul_lt_mul_right this (by norm_num)

/-- C16 at the uniform draw `1/4 = 1 * 2 ^ (-2)` of `counterRand` in state 1:
the stored value is 16384. -/
theorem drawBeta_quantised_witness :
    1 < 2 ^ 53 ∧ (-1074 : Int) ≤ -2 ∧
    (counterRand.uniformRand 1).1 = Fl.fin (((1 : Nat) : ℚ) * 2 ^ (-2 : Int)) ∧
    ((1 : Nat) : ℚ) * 2 ^ (-2 : Int) < 1 ∧
    ∃ b : Nat, (drawBeta IEEE.go counterRand 1).1 = b ∧
      IEEE.go.toUint16 (IEEE.go.mul64 (counterRand.uniformRand 1).1
        (IEEE.go.ofNat64 maxUint16)) = b ∧
      (b : Int) = ⌊((1 : Nat) : ℚ) * 2 ^ (-2 : Int) * 65536⌋ ∧ b ≤ 65535 ∧
      betaOf IEEE.go b = Fl.fin ((b : ℚ) / 65536) ∧
      0 ≤ (b : ℚ) / 65536 ∧ (b : ℚ) / 65536 < 1 ∧
      (b : ℚ) / 65536 ≤ ((1 : Nat) : ℚ) * 2 ^ (-2 : Int) ∧
      ((1 : Nat) : ℚ) * 2 ^ (-2 : Int) < (b : ℚ) / 65536 + 1 / 65536 :=
  ⟨by norm_num, by norm_num, by decide!, by norm_num,
    drawBeta_quantised approxLn (fun _ _ => 0) counterRand 1 1 (-2) (by norm_num)
      (by norm_num) (by decide!) (by norm_num)⟩

end Wmh
